import Mathlib

/-!
sequenceParser: a verification development.

A shallow embedding of `src/Sequence.cpp` and `src/filesystem.cpp`.

Conventions of the embedding.
* A `std::string` is a `List Char`.
* `Time` is a signed 64-bit integer: an `Int` in `[-2^63, 2^63)`.
* `std::size_t` is an unsigned 64-bit integer: a `Nat` below `2^64`; a
  conversion from `Time` reduces modulo `2^64`.
* A `std::set<std::size_t>` is the strictly increasing list of its elements.
* A member function that writes fields of `*this` takes the `Sequence` and
  returns the updated one; undefined behaviour, a thrown exception and an
  exhausted recursion budget are `none`.
-/

namespace sequenceParser

/-! ## Machine integers -/

/-- Conversion of a `Time` value to `std::size_t` (reduction modulo `2^64`). -/
def toSizeT (z : Int) : Nat := (z % 2 ^ 64).toNat

/-- The values a `Time` (signed 64-bit) variable can hold. -/
def isTime (z : Int) : Prop := -(2 ^ 63) ≤ z ∧ z < 2 ^ 63

instance (z : Int) : Decidable (isTime z) := by
  unfold isTime; infer_instance

/-! ## `std::set<std::size_t>` -/

/-- Insertion `std::set::insert`: the list stays strictly increasing. -/
def setInsert (x : Nat) : List Nat → List Nat
  | [] => [x]
  | y :: ys =>
    if x < y then x :: y :: ys
    else if x = y then y :: ys
    else y :: setInsert x ys

/-- Removal `std::set::erase( key )`. -/
def setErase (x : Nat) : List Nat → List Nat
  | [] => []
  | y :: ys => if x = y then ys else y :: setErase x ys

/-! ## The sequence object -/

/-- The data members of `Sequence` that `Sequence.cpp` reads and writes.
`_step`, `_padding` and `_nbFiles` are `std::size_t`, the two times are `Time`. -/
structure Sequence where
  _prefix : List Char
  _suffix : List Char
  _strictPadding : Bool
  _padding : Nat
  _step : Nat
  _firstTime : Int
  _lastTime : Int
  _nbFiles : Nat
  deriving DecidableEq, Repr

/-- Modelled from the spec: `greatestCommonDivisor` is defined in a header that is
not part of the sources; the spec calls it the greatest common divisor. -/
def greatestCommonDivisor (a b : Nat) : Nat := Nat.gcd a b

/-! ## `Sequence::extractStep` -/

/-- The loop of `extractStep( const std::set<std::size_t>& )`: `itA` and `itB`
walk over neighbouring elements and `gcd( *itB, *itA )` is inserted in `allSteps`. -/
def gcdNeighbours : List Nat → List Nat → List Nat
  | a :: b :: rest, allSteps =>
    gcdNeighbours (b :: rest) (setInsert (greatestCommonDivisor b a) allSteps)
  | _, allSteps => allSteps

/-- The recursive overload `extractStep( const std::set<std::size_t>& steps )`.
The first argument bounds the recursion depth.  On the empty set the source
increments `steps.begin()`, which is undefined. -/
def extractStepSet : Nat → Sequence → List Nat → Option Sequence
  | 0, _, _ => none
  | fuel + 1, s, steps =>
    match steps with
    | [] => none
    | [x] => some { s with _step := x }
    | a :: b :: rest => extractStepSet fuel s (gcdNeighbours (a :: b :: rest) [])

/-- The loop of `extractStep( const std::vector<Time>& )`: the differences
`*itB - *itA` of neighbouring times are inserted in `allSteps`. -/
def diffNeighbours : List Int → List Nat → List Nat
  | a :: b :: rest, allSteps =>
    diffNeighbours (b :: rest) (setInsert (toSizeT (b - a)) allSteps)
  | _, allSteps => allSteps

/-- The overload `extractStep( const std::vector<Time>& times )`. -/
def extractStep (fuel : Nat) (s : Sequence) (times : List Int) : Option Sequence :=
  if times.length ≤ 1 then some { s with _step := 1 }
  else extractStepSet fuel s (diffNeighbours times [])

/-- The consecutive differences `times[i+1] - times[i]`. -/
def deltas : List Int → List Int
  | a :: b :: rest => (b - a) :: deltas (b :: rest)
  | _ => []

/-- The greatest common divisor of a list of integers. -/
def gcdOfList (l : List Int) : Nat := l.foldr (fun z g => Nat.gcd z.natAbs g) 0

/-- A strictly increasing list. -/
def StrictlyIncreasing : List Int → Prop
  | a :: b :: rest => a < b ∧ StrictlyIncreasing (b :: rest)
  | _ => True

instance decStrictlyIncreasing : (l : List Int) → Decidable (StrictlyIncreasing l)
  | [] => isTrue trivial
  | [_] => isTrue trivial
  | a :: b :: rest =>
    match Int.decLt a b, decStrictlyIncreasing (b :: rest) with
    | isTrue h1, isTrue h2 => isTrue ⟨h1, h2⟩
    | isFalse h1, _ => isFalse (fun h => h1 h.1)
    | _, isFalse h2 => isFalse (fun h => h2 h.2)

/-- The sequence of the constructor: `_padding(0)`, `_step(1)`, `_firstTime(0)`,
`_lastTime(0)`, `_nbFiles(0)` and empty strings. -/
def emptySequence : Sequence :=
  { _prefix := [], _suffix := [], _strictPadding := false, _padding := 0, _step := 1,
    _firstTime := 0, _lastTime := 0, _nbFiles := 0 }

/-- The greatest common divisor of the elements of a set. -/
def listGcd (l : List Nat) : Nat := l.foldr Nat.gcd 0

/-! ## Regular expressions

`boost::regex` with the default (Perl) syntax matches by depth-first backtracking:
alternatives are tried left to right, a greedy repeat tries the longest run first, a
non-greedy one the shortest, and the first way that succeeds fixes the sub-matches.
`regex_match` succeeds only when the whole input is consumed. -/

/-- The constructs that the four patterns of `Sequence.cpp` use. Repeats are only
applied to single characters and character classes. -/
inductive Regex where
  /-- A single character of a class: a literal, `.`, `[0-9]`, `[_\.]`. -/
  | chr (p : Char → Bool)
  /-- Concatenation. -/
  | seq (a b : Regex)
  /-- Alternation `a|b`. -/
  | alt (a b : Regex)
  /-- Optional `a?` (greedy). -/
  | opt (a : Regex)
  /-- Repeat `c*` of a class (greedy). -/
  | star (p : Char → Bool)
  /-- Repeat `c+` of a class (greedy). -/
  | plus (p : Char → Bool)
  /-- Repeat `c*?` of a class (non-greedy). -/
  | lazyStar (p : Char → Bool)
  /-- Marked sub-expression number `i`. -/
  | group (i : Nat) (a : Regex)

/-- The sub-matches `matches[i]`. -/
abbrev Captures := List (List Char)

/-- Greedy repeat of a class: the longest run first, then shorter ones. -/
def starGreedy (p : Char → Bool) : List Char → (List Char → Option Captures) → Option Captures
  | [], k => k []
  | c :: cs, k =>
    if p c then
      match starGreedy p cs k with
      | some r => some r
      | none => k (c :: cs)
    else k (c :: cs)

/-- Non-greedy repeat of a class: the shortest run first, then longer ones. -/
def starLazy (p : Char → Bool) : List Char → (List Char → Option Captures) → Option Captures
  | [], k => k []
  | c :: cs, k =>
    match k (c :: cs) with
    | some r => some r
    | none => if p c then starLazy p cs k else none

/-- The backtracking matcher: `run r input caps k` matches `r` at the start of `input`
and hands the rest of the input and the sub-matches to the continuation `k`; when `k`
fails, the next way of matching `r` is tried. -/
def Regex.run : Regex → List Char → Captures →
    (List Char → Captures → Option Captures) → Option Captures
  | .chr p, input, caps, k =>
    match input with
    | c :: cs => if p c then k cs caps else none
    | [] => none
  | .seq a b, input, caps, k => a.run input caps (fun rest caps1 => b.run rest caps1 k)
  | .alt a b, input, caps, k =>
    match a.run input caps k with
    | some r => some r
    | none => b.run input caps k
  | .opt a, input, caps, k =>
    match a.run input caps k with
    | some r => some r
    | none => k input caps
  | .star p, input, caps, k => starGreedy p input (fun rest => k rest caps)
  | .plus p, input, caps, k =>
    match input with
    | c :: cs => if p c then starGreedy p cs (fun rest => k rest caps) else none
    | [] => none
  | .lazyStar p, input, caps, k => starLazy p input (fun rest => k rest caps)
  | .group i a, input, caps, k =>
    a.run input caps
      (fun rest caps1 => k rest (caps1.set i (input.take (input.length - rest.length))))

/-- The call `regex_match( str, matches, re )`: the sub-matches of the first way of
matching the whole of `str`, or `none` when there is none. -/
def regex_match (str : List Char) (re : Regex) : Option Captures :=
  re.run str [[], [], [], []] (fun rest caps => if rest = [] then some caps else none)

/-- The class `.`: any character. -/
def anyChar : Char → Bool := fun _ => true

/-- A literal character. -/
def lit (c : Char) : Char → Bool := fun x => x == c

/-- The class `[0-9]`. -/
def digit : Char → Bool := fun x => '0' ≤ x && x ≤ '9'

/-- The class `[_\.]`. -/
def underscoreOrDot : Char → Bool := fun x => x == '_' || x == '.'

/-- The class `[\-\+]`. -/
def minusOrPlus : Char → Bool := fun x => x == '-' || x == '+'

/-- The sub-expression `(#+|@+)` of the Standard pattern. -/
def hashesOrAts : Regex := .group 2 (.alt (.plus (lit '#')) (.plus (lit '@')))

/-- The pattern `(.*?)\[?(#+|@+)\]?(.*?)`. -/
def regexPatternStandard : Regex :=
  .seq (.group 1 (.lazyStar anyChar))
    (.seq (.opt (.chr (lit '[')))
      (.seq hashesOrAts
        (.seq (.opt (.chr (lit ']')))
          (.group 3 (.lazyStar anyChar)))))

/-- The pattern `(.*?)\[?%([0-9]*)d\]?(.*?)`. -/
def regexPatternCStyle : Regex :=
  .seq (.group 1 (.lazyStar anyChar))
    (.seq (.opt (.chr (lit '[')))
      (.seq (.chr (lit '%'))
        (.seq (.group 2 (.star digit))
          (.seq (.chr (lit 'd'))
            (.seq (.opt (.chr (lit ']')))
              (.group 3 (.lazyStar anyChar)))))))

/-- The pattern `(.*?[_\.]?)\[?([0-9]+)\]?([_\.]?.*\.?.*?)`. -/
def regexPatternFrame : Regex :=
  .seq (.group 1 (.seq (.lazyStar anyChar) (.opt (.chr underscoreOrDot))))
    (.seq (.opt (.chr (lit '[')))
      (.seq (.group 2 (.plus digit))
        (.seq (.opt (.chr (lit ']')))
          (.group 3 (.seq (.opt (.chr underscoreOrDot))
            (.seq (.star anyChar) (.seq (.opt (.chr (lit '.'))) (.lazyStar anyChar))))))))

/-- The pattern `(.*?[_\.]?)\[?([\-\+]?[0-9]+)\]?([_\.]?.*\.?.*?)`. -/
def regexPatternFrameNeg : Regex :=
  .seq (.group 1 (.seq (.lazyStar anyChar) (.opt (.chr underscoreOrDot))))
    (.seq (.opt (.chr (lit '[')))
      (.seq (.group 2 (.seq (.opt (.chr minusOrPlus)) (.plus digit)))
        (.seq (.opt (.chr (lit ']')))
          (.group 3 (.seq (.opt (.chr underscoreOrDot))
            (.seq (.star anyChar) (.seq (.opt (.chr (lit '.'))) (.lazyStar anyChar))))))))

/-- The characters that `std::string::c_str()` shows to a reader of a C string:
those before the first NUL. -/
def c_str (s : List Char) : List Char := s.takeWhile (fun c => c != '\x00')

/-- The character `s[0]` of a `std::string`; for the empty string it is the
terminating NUL. -/
def charAt0 (s : List Char) : Char := s.headD '\x00'

/-- The call `s.substr( pos, n )`, for `pos` not beyond the end of `s`. -/
def substr (s : List Char) (pos n : Nat) : List Char := (s.drop pos).take n

/-! ## `boost::lexical_cast` -/

/-- The value of a string of decimal digits read after the accumulator `acc`;
`none` when a character is not a digit. -/
def parseDigitsAux : List Char → Nat → Option Nat
  | [], acc => some acc
  | c :: cs, acc => if digit c then parseDigitsAux cs (10 * acc + (c.toNat - 48)) else none

/-- The value of a non-empty string of decimal digits. -/
def parseDigits : List Char → Option Nat
  | [] => none
  | c :: cs => parseDigitsAux (c :: cs) 0

/-- The conversion `boost::lexical_cast<Time>( str )`: an optional sign, then decimal
digits up to the end of the string, with a value that fits the signed 64-bit type; `none`
is `bad_lexical_cast`. -/
def lexicalCastTime (str : List Char) : Option Int :=
  match str with
  | '-' :: ds => (parseDigits ds).bind (fun v => if v ≤ 2 ^ 63 then some (-(v : Int)) else none)
  | '+' :: ds => (parseDigits ds).bind (fun v => if v < 2 ^ 63 then some (v : Int) else none)
  | ds => (parseDigits ds).bind (fun v => if v < 2 ^ 63 then some (v : Int) else none)

/-- The conversion `boost::lexical_cast<std::size_t>( str )` of a string of decimal
digits: the value when it fits the unsigned 64-bit type; `none` is `bad_lexical_cast`. -/
def lexicalCastSizeT (str : List Char) : Option Nat :=
  (parseDigits str).bind (fun v => if v < 2 ^ 64 then some v else none)

/-! ## `Sequence::isIn` and `Sequence::retrieveInfosFromPattern` -/

/-- The function `Sequence::isIn( filename, time, timeStr )`: `some (time, timeStr)` when
it returns true, `none` when it returns false. -/
def isIn (s : Sequence) (filename : List Char) : Option (Int × List Char) :=
  let min := s._prefix.length + s._suffix.length
  if filename.length ≤ min then none
  else if substr filename 0 s._prefix.length ≠ s._prefix ∨
      substr filename (filename.length - s._suffix.length) s._suffix.length ≠ s._suffix then none
  else
    let timeStr :=
      substr filename s._prefix.length (filename.length - s._suffix.length - s._prefix.length)
    match lexicalCastTime timeStr with
    | some time => some (time, timeStr)
    | none => none

/-- The argument `accept` of type `EPattern`, a set of flags declared in a header that is
not among the sources: each field is the outcome of one test `accept & ePattern...`. -/
structure EPattern where
  standard : Bool
  cStyle : Bool
  frame : Bool
  frameNeg : Bool
  deriving DecidableEq, Repr

/-- The common end of `retrieveInfosFromPattern`: sub-matches 1 and 3 are stored. -/
def storeAffixes (m : Captures) (s : Sequence) : Sequence :=
  { s with _prefix := m.getD 1 [], _suffix := m.getD 3 [] }

/-- The function `Sequence::retrieveInfosFromPattern`. Its four output arguments are the
fields `_prefix`, `_suffix`, `_padding` and `_strictPadding` of the sequence, as at both
calls in `Sequence.cpp`. The result is `none` when `lexical_cast` throws, and otherwise
the returned boolean with the written fields. -/
def retrieveInfosFromPattern (filePattern : List Char) (accept : EPattern) (s : Sequence) :
    Option (Bool × Sequence) :=
  match (if accept.standard then regex_match (c_str filePattern) regexPatternStandard
         else none) with
  | some m =>
    let paddingStr := m.getD 2 []
    some (true, storeAffixes m
      { s with _padding := paddingStr.length, _strictPadding := charAt0 paddingStr == '#' })
  | none =>
  match (if accept.cStyle then regex_match (c_str filePattern) regexPatternCStyle
         else none) with
  | some m =>
    let paddingStr := m.getD 2 []
    match (if paddingStr.length = 0 then some 0 else lexicalCastSizeT paddingStr) with
    | none => none
    | some padding =>
      some (true, storeAffixes m { s with _padding := padding, _strictPadding := false })
  | none =>
  match (if accept.frame then regex_match (c_str filePattern) regexPatternFrame
         else none) with
  | some m =>
    let frame := m.getD 2 []
    some (true, storeAffixes m { s with _padding := frame.length, _strictPadding := false })
  | none =>
  match (if accept.frameNeg then regex_match (c_str filePattern) regexPatternFrameNeg
         else none) with
  | some m =>
    let frame := m.getD 2 []
    some (true, storeAffixes m { s with _padding := frame.length, _strictPadding := false })
  | none => some (false, s)

/-! ## Padding -/

/-- The function `Sequence::getPaddingFromStringNumber`. -/
def getPaddingFromStringNumber (timeStr : List Char) : Nat :=
  if timeStr.length > 1 then
    if charAt0 timeStr == '-' || charAt0 timeStr == '+' then timeStr.length - 1
    else timeStr.length
  else timeStr.length

/-- The overload `extractPadding( const std::vector<std::string>& timesStr )`; `none` on
the empty vector, where the assertion fails and `front()` is undefined. -/
def extractPadding (s : Sequence) (timesStr : List (List Char)) : Option Sequence :=
  match timesStr with
  | [] => none
  | front :: _ =>
    let padding := getPaddingFromStringNumber front
    if timesStr.any (fun str => padding != getPaddingFromStringNumber str)
    then some { s with _padding := 0 }
    else some { s with _padding := padding }

/-- The overload `extractIsStrictPadding( const std::vector<std::string>&, padding )`. -/
def extractIsStrictPadding (s : Sequence) (timesStr : List (List Char)) (padding : Nat) :
    Sequence :=
  if padding = 0 then { s with _strictPadding := false }
  else if timesStr.any (fun str => charAt0 str == '0') then { s with _strictPadding := true }
  else { s with _strictPadding := false }

/-! ## `detail::FileNumbers` -/

/-- Modelled from the spec: a number token of a decomposed filename (the class
`detail::FileNumbers` is declared in a header that is not among the sources). It has the
raw digit string without sign, the sign when negative-number detection found one, and
the value. -/
structure NumberToken where
  sign : Option Char
  digits : List Char
  value : Int
  deriving DecidableEq, Repr

/-- Modelled from the spec: `nbDigits` is the count of digit characters. -/
def NumberToken.nbDigits (n : NumberToken) : Nat := n.digits.length

/-- Modelled from the spec: the padding of a token is `nbDigits` if the first digit is
`'0'` and `nbDigits > 1`, otherwise `0`. -/
def NumberToken.padding (n : NumberToken) : Nat :=
  if charAt0 n.digits == '0' && n.nbDigits > 1 then n.nbDigits else 0

/-- Modelled from the spec: the characters of the token in the filename. -/
def NumberToken.string (n : NumberToken) : List Char := n.sign.toList ++ n.digits

/-- Modelled from the spec: the `numbers` component of one decomposed filename
(`detail::FileNumbers`, declared in a header that is not among the sources). -/
abbrev FileNumbers := List NumberToken

/-- Modelled from the spec: the token at slot `i` (the accessors of `FileNumbers` index
its vector without a check). -/
def FileNumbers.at (n : FileNumbers) (i : Nat) : NumberToken :=
  n.getD i { sign := none, digits := [], value := 0 }

/-- Modelled from the spec: the accessor `getTime( i )`, the value at slot `i`. -/
def FileNumbers.getTime (n : FileNumbers) (i : Nat) : Int := (FileNumbers.at n i).value

/-- Modelled from the spec: the accessor `getString( i )`. -/
def FileNumbers.getString (n : FileNumbers) (i : Nat) : List Char := (FileNumbers.at n i).string

/-- Modelled from the spec: the accessor `getPadding( i )`. -/
def FileNumbers.getPadding (n : FileNumbers) (i : Nat) : Nat := (FileNumbers.at n i).padding

/-- Modelled from the spec: the accessor `getNbDigits( i )`. -/
def FileNumbers.getNbDigits (n : FileNumbers) (i : Nat) : Nat := (FileNumbers.at n i).nbDigits

/-- The set built by inserting the elements of a list one after the other. -/
def setOfList (l : List Nat) : List Nat := l.foldl (fun acc x => setInsert x acc) []

/-- The overload `extractPadding( timesBegin, timesEnd, i )` on a range of `FileNumbers`;
`none` on the empty range, where the assertion fails. -/
def extractPaddingFileNumbers (s : Sequence) (times : List FileNumbers) (i : Nat) :
    Option Sequence :=
  if times.length = 0 then none
  else
    let padding := setOfList (times.map (fun t => FileNumbers.getPadding t i))
    let pad := setErase 0 padding
    if pad.length = 0 then some { s with _padding := 0 }
    else if pad.length = 1 then some { s with _padding := pad.headD 0 }
    else some { s with _padding := 0 }

/-- The overload `extractIsStrictPadding( const std::vector<detail::FileNumbers>&, i,
padding )`. -/
def extractIsStrictPaddingFileNumbers (s : Sequence) (times : List FileNumbers) (i : Nat)
    (padding : Nat) : Sequence :=
  if padding = 0 then { s with _strictPadding := false }
  else if times.any (fun t => charAt0 (FileNumbers.getString t i) == '0')
  then { s with _strictPadding := true }
  else { s with _strictPadding := false }

/-- The loop of `extractStep( timesBegin, timesEnd, i )` on a range of `FileNumbers`. -/
def diffNeighboursFileNumbers (i : Nat) : List FileNumbers → List Nat → List Nat
  | a :: b :: rest, allSteps =>
    diffNeighboursFileNumbers i (b :: rest)
      (setInsert (toSizeT (FileNumbers.getTime b i - FileNumbers.getTime a i)) allSteps)
  | _, allSteps => allSteps

/-- The overload `extractStep( timesBegin, timesEnd, i )` on a range of `FileNumbers`. -/
def extractStepFileNumbers (fuel : Nat) (s : Sequence) (times : List FileNumbers) (i : Nat) :
    Option Sequence :=
  if times.length ≤ 1 then some { s with _step := 1 }
  else extractStepSet fuel s (diffNeighboursFileNumbers i times [])

/-! ## `Sequence::initFromDetection` -/

/-- Modelled from the spec: `Sequence::clear()` is defined in a header that is not among
the sources; it empties the sequence, giving the members the values that the
constructor of `Sequence.cpp` gives them (`_padding(0)`, `_step(1)`, `_firstTime(0)`,
`_lastTime(0)`, `_nbFiles(0)`, empty strings). `_strictPadding` is left as it is. -/
def clear (s : Sequence) : Sequence :=
  { s with _prefix := [], _suffix := [], _padding := 0, _step := 1, _firstTime := 0,
           _lastTime := 0, _nbFiles := 0 }

/-- The call `std::sort( allTimes.begin(), allTimes.end() )`. -/
def sortTimes (allTimes : List Int) : List Int := allTimes.insertionSort (· ≤ ·)

/-- The function `Sequence::initFromDetection( pattern, accept )`. `filePattern` is the
filename part of `pattern`; `directory` is `none` when `_directory` does not exist and
otherwise the filenames of its entries in the order of the directory iterator. The
result is `none` when an exception leaves the function, otherwise the returned boolean
and the sequence. The recursion budget given to `extractStep` is the number of times,
which is always enough. -/
def initFromDetection (s : Sequence) (filePattern : List Char) (accept : EPattern)
    (directory : Option (List (List Char))) : Option (Bool × Sequence) :=
  match retrieveInfosFromPattern filePattern accept (clear s) with
  | none => none
  | some (false, s1) => some (false, s1)
  | some (true, s1) =>
    match directory with
    | none => some (true, s1)
    | some entries =>
      let found := entries.filterMap (isIn s1)
      let allTimes := found.map Prod.fst
      let allTimesStr := found.map Prod.snd
      if allTimes.length < 2 then
        match allTimes with
        | [t] => some (true, { s1 with _firstTime := t, _lastTime := t })
        | _ => some (true, s1)
      else
        let sorted := sortTimes allTimes
        match extractStep sorted.length s1 sorted with
        | none => none
        | some s2 =>
          match extractPadding s2 allTimesStr with
          | none => none
          | some s3 =>
            let s4 := extractIsStrictPadding s3 allTimesStr s3._padding
            some (true, { s4 with _firstTime := sorted.headD 0, _lastTime := sorted.getLastD 0,
                                  _nbFiles := sorted.length })

/-- Modelled from the spec: `renderNumber` of section 4.4 (the rendering of a frame is in
a header that is not among the sources). It produces the signed decimal of `t`; if
`strictPadding`, it left-pads the unsigned part with `'0'` to width `padding`; if
`padding > 0` but not strict, it left-pads only when the digit count is less than
`padding`. -/
def renderNumber (t : Int) (padding : Nat) (strictPadding : Bool) : List Char :=
  let unsignedPart := Nat.toDigits 10 t.natAbs
  let padded :=
    if strictPadding then List.replicate (padding - unsignedPart.length) '0' ++ unsignedPart
    else if padding > 0 ∧ unsignedPart.length < padding then
      List.replicate (padding - unsignedPart.length) '0' ++ unsignedPart
    else unsignedPart
  (if t < 0 then ['-'] else []) ++ padded

/-- Modelled from the spec: the derived `nbMissingFiles =
((lastTime - firstTime) / step + 1) - nbFiles` of section 3 (the accessor is in a header
that is not among the sources); `none` when the step is 0 and the quotient is not
defined. -/
def nbMissingFiles (s : Sequence) : Option Int :=
  if s._step = 0 then none
  else some (((s._lastTime - s._firstTime) / (s._step : Int) + 1) - (s._nbFiles : Int))

/-- The sequence that `initFromDetection` builds for the pattern `a.#.exr` in a directory
with the files `a.01.exr` and `a.100.exr`. -/
def mixedWidthSequence : Sequence :=
  { _prefix := "a.".toList, _suffix := ".exr".toList, _strictPadding := false, _padding := 0,
    _step := 99, _firstTime := 1, _lastTime := 100, _nbFiles := 2 }

/-- The sequence that `initFromDetection` builds for the pattern `a.#.exr` in a directory
whose only accepted file is `a.5.exr`. -/
def singleFileSequence : Sequence :=
  { _prefix := "a.".toList, _suffix := ".exr".toList, _strictPadding := true, _padding := 1,
    _step := 1, _firstTime := 5, _lastTime := 5, _nbFiles := 0 }

/-- Every form accepted. -/
def acceptAll : EPattern := { standard := true, cStyle := true, frame := true, frameNeg := true }

/-- Only the Standard form accepted. -/
def acceptStandard : EPattern :=
  { standard := true, cStyle := false, frame := false, frameNeg := false }

/-! ## Detection from a list of names

`decomposeFilename`, `buildSequences` and `Detector::sequenceFromFilenameList` are not
among the sources (only the test `multisequence.cpp` and the caller `browse` are); this
part follows sections 4.1 to 4.6 of the specification. -/

/-- Modelled from the spec: the detection options of section 6 (the type `EDetection`
is declared in a header that is not among the sources). -/
structure EDetection where
  sequenceFromFilename : Bool
  negative : Bool
  sequenceNeedAtLeastTwoFiles : Bool
  ignoreDotFile : Bool
  deriving DecidableEq, Repr

/-- Modelled from the spec: no detection option set. -/
def defaultDetection : EDetection :=
  { sequenceFromFilename := false, negative := false, sequenceNeedAtLeastTwoFiles := false,
    ignoreDotFile := false }

/-- Modelled from the spec: the run that the decomposer of section 4.1 is in, a string-run
or a numeric run with its optional sign and the digits read so far. -/
inductive Run where
  | str (chars : List Char)
  | num (sign : Option Char) (digits : List Char)

/-- Modelled from the spec: the number token of a finished numeric run (section 3); the
value is the signed value of the digits. -/
def mkToken (sign : Option Char) (digits : List Char) : NumberToken :=
  let v : Int := ((parseDigitsAux digits 0).getD 0 : Nat)
  { sign := sign, digits := digits, value := if sign = some '-' then -v else v }

/-- Modelled from the spec: the scan of the decomposer of section 4.1, left to right.
Characters go to the current string-run until a decimal digit is met, or, with
negative-number detection, a `+` or `-` immediately followed by a digit and preceded by
a non-digit or the start. Entering a numeric run closes the string-run (even if empty);
leaving it emits a number token and starts a new string-run; at the end the trailing
string-run (possibly empty) is closed. -/
def decomposeScan (negative : Bool) :
    List Char → Run → List (List Char) → FileNumbers → List (List Char) × FileNumbers
  | [], .str cur, strings, numbers => (strings ++ [cur], numbers)
  | [], .num sign digits, strings, numbers => (strings ++ [[]], numbers ++ [mkToken sign digits])
  | c :: cs, .str cur, strings, numbers =>
    if digit c then decomposeScan negative cs (.num none [c]) (strings ++ [cur]) numbers
    else if negative && (c == '-' || c == '+') && digit (charAt0 cs) then
      decomposeScan negative cs (.num (some c) []) (strings ++ [cur]) numbers
    else decomposeScan negative cs (.str (cur ++ [c])) strings numbers
  | c :: cs, .num sign digits, strings, numbers =>
    if digit c then decomposeScan negative cs (.num sign (digits ++ [c])) strings numbers
    else decomposeScan negative cs (.str [c]) strings (numbers ++ [mkToken sign digits])

/-- Modelled from the spec: the decomposer of section 4.1, giving `(strings, numbers)`. -/
def decomposeFilename (filename : List Char) (options : EDetection) :
    List (List Char) × FileNumbers :=
  decomposeScan options.negative filename (.str []) [] []

/-- Modelled from the spec: insertion in the group map of section 4.2; the groups are
kept in the order in which their keys first appear. -/
def insertGroup (strings : List (List Char)) (numbers : FileNumbers) :
    List (List (List Char) × List FileNumbers) → List (List (List Char) × List FileNumbers)
  | [] => [(strings, [numbers])]
  | (key, tuples) :: groups =>
    if key = strings then (key, tuples ++ [numbers]) :: groups
    else (key, tuples) :: insertGroup strings numbers groups

/-- Modelled from the spec: the set `V` of section 4.3, the slots whose value is not
constant across all tuples, in increasing order. -/
def varyingSlots (tuples : List FileNumbers) : List Nat :=
  (List.range (tuples.headD []).length).filter (fun i =>
    tuples.any (fun t => FileNumbers.getTime t i != FileNumbers.getTime (tuples.headD []) i))

/-- The distinct elements of a list of keys, in the order of their first appearance. -/
def distinctKeys : List (List Int) → List (List Int)
  | [] => []
  | k :: ks => k :: (distinctKeys ks).filter (fun k1 => k1 != k)

/-- Modelled from the spec: ascending sort of the tuples by the value at slot `r`. -/
def sortBySlot (r : Nat) (tuples : List FileNumbers) : List FileNumbers :=
  tuples.insertionSort (fun a b => FileNumbers.getTime a r ≤ FileNumbers.getTime b r)

/-- Modelled from the spec: the disambiguator of section 4.3. With no varying slot there
is one candidate on the last slot; with one, one candidate on it; with two or more the
rightmost varying slot `r` is the frame index and the tuples are partitioned by the
combined value of all other varying slots. Each candidate is sorted by the value at
its slot. -/
def disambiguate (tuples : List FileNumbers) : List (Nat × List FileNumbers) :=
  match (varyingSlots tuples).reverse with
  | [] => [((tuples.headD []).length - 1, sortBySlot ((tuples.headD []).length - 1) tuples)]
  | [r] => [(r, sortBySlot r tuples)]
  | r :: others =>
    let key := fun (t : FileNumbers) => others.reverse.map (fun i => FileNumbers.getTime t i)
    (distinctKeys (tuples.map key)).map (fun k =>
      (r, sortBySlot r (tuples.filter (fun t => key t = k))))

/-- Modelled from the spec: the interleaved rendering of `strings[a..b)` and the raw
digits of `numbers[a..b)`, string first. -/
def interleave (strings : List (List Char)) (numbers : FileNumbers) (a b : Nat) : List Char :=
  ((List.range (b - a)).map (fun j =>
    strings.getD (a + j) [] ++ FileNumbers.getString numbers (a + j))).flatten

/-- Modelled from the spec: the sequence builder of section 4.4 for the candidate
`(r, tuples)` of the group `strings`. The step, the padding and the strict padding are
those of the `FileNumbers` overloads of `Sequence.cpp`. -/
def buildSequence (strings : List (List Char)) (r : Nat) (tuples : List FileNumbers) :
    Option Sequence :=
  let first := tuples.headD []
  let s0 : Sequence :=
    { _prefix := interleave strings first 0 r ++ strings.getD r [],
      _suffix := strings.getD (r + 1) [] ++
        ((List.range (first.length - (r + 1))).map (fun j =>
          FileNumbers.getString first (r + 1 + j) ++ strings.getD (r + 2 + j) [])).flatten,
      _strictPadding := false, _padding := 0, _step := 1,
      _firstTime := FileNumbers.getTime first r,
      _lastTime := FileNumbers.getTime (tuples.getLastD []) r,
      _nbFiles := tuples.length }
  match extractStepFileNumbers tuples.length s0 tuples r with
  | none => none
  | some s1 =>
    match extractPaddingFileNumbers s1 tuples r with
    | none => none
    | some s2 => some (extractIsStrictPaddingFileNumbers s2 tuples r s2._padding)

/-- Modelled from the spec: `buildSequences` (section 4.6, step 4), the sequences of the
candidates of one group. -/
def buildSequences (strings : List (List Char)) (tuples : List FileNumbers) : List Sequence :=
  (disambiguate tuples).filterMap (fun c => buildSequence strings c.1 c.2)

/-- The filename part of a path: what follows the last `/`. -/
def filenameOfPath (path : List Char) : List Char :=
  (path.reverse.takeWhile (fun c => c != '/')).reverse

/-- Modelled from the spec: the group map of a list of names (section 4.6, step 3):
a name with at least one number joins its group. -/
def groupNames (options : EDetection) :
    List (List Char) → List (List (List Char) × List FileNumbers) →
      List (List (List Char) × List FileNumbers)
  | [], groups => groups
  | name :: names, groups =>
    if options.ignoreDotFile && charAt0 name == '.' then groupNames options names groups
    else
      let d := decomposeFilename name options
      if d.2.length = 0 then groupNames options names groups
      else groupNames options names (insertGroup d.1 d.2 groups)

/-- Modelled from the spec: `Detector::sequenceFromFilenameList`, sequence detection from
a pre-supplied list of paths (section 4.6): the pipeline of `browse` without the
enumeration and the filters. A built sequence with only one file is a plain file, not a
sequence, when `SequenceNeedsAtLeastTwoFiles` is set. -/
def sequenceFromFilenameList (paths : List (List Char)) (options : EDetection) : List Sequence :=
  let groups := groupNames options (paths.map filenameOfPath) []
  let built := (groups.map (fun g => buildSequences g.1 g.2)).flatten
  built.filter (fun s => !(options.sequenceNeedAtLeastTwoFiles && s._nbFiles == 1))

/-- The six paths of the test `SimpleMultiSequenceMultiLevel`. -/
def simpleMultiSequenceMultiLevelPaths : List (List Char) :=
  ["aaa/bbb/a1b2c1.j2c".toList, "aaa/bbb/a1b2c2.j2c".toList, "aaa/bbb/a1b2c3.j2c".toList,
   "aaa/bbb/a1b3c4.j2c".toList, "aaa/bbb/a1b4c4.j2c".toList, "aaa/bbb/a1b5c4.j2c".toList]

/-! ## `Sequence::checkPattern` and the rendered pattern -/

/-- The value that `Sequence::checkPattern` returns. -/
inductive PatternKind where
  | ePatternNone
  | ePatternStandard
  | ePatternCStyle
  | ePatternFrame
  | ePatternFrameNeg
  deriving DecidableEq, Repr

/-- The function `Sequence::checkPattern( pattern, detectionOptions )`. -/
def checkPattern (pattern : List Char) (detectionOptions : EDetection) : PatternKind :=
  if (regex_match (c_str pattern) regexPatternStandard).isSome then .ePatternStandard
  else if (regex_match (c_str pattern) regexPatternCStyle).isSome then .ePatternCStyle
  else if detectionOptions.negative
      && (regex_match (c_str pattern) regexPatternFrameNeg).isSome then .ePatternFrameNeg
  else if (regex_match (c_str pattern) regexPatternFrame).isSome then .ePatternFrame
  else .ePatternNone

/-- Only the Frame-with-sign form accepted. -/
def acceptFrameNeg : EPattern :=
  { standard := false, cStyle := false, frame := false, frameNeg := true }

/-- Only the Frame form accepted. -/
def acceptFrame : EPattern :=
  { standard := false, cStyle := false, frame := true, frameNeg := false }

/-- Modelled from the spec: the pattern rendered from a sequence (the rendering is in a
header that is not among the sources): the prefix, then the numeric field written as
padding-many `#` when the padding is strict and `@` otherwise, then the suffix. -/
def renderPattern (s : Sequence) : List Char :=
  s._prefix ++ List.replicate s._padding (if s._strictPadding then '#' else '@') ++ s._suffix

/-- The number written by a string of decimal digits. -/
def decimalValue (d : List Char) : Nat :=
  d.foldl (fun acc c => 10 * acc + (c.toNat - 48)) 0

/-! ## `Sequence::getFiles` -/

/-- Conversion of a wide value to `Time` (two's complement, modulo `2^64`). -/
def toTime (z : Int) : Int := (z + 2 ^ 63) % 2 ^ 64 - 2 ^ 63

/-- The loop of `Sequence::getFiles`: `for( t = ...; t <= getLastTime(); t += getStep() )`
with the body `allPaths.push_back( getAbsoluteFilenameAt( t ) )`. The first argument
bounds the number of tests of the loop condition. `getAbsoluteFilenameAt` is defined in
a header that is not among the sources and is an argument. -/
def getFilesLoop (getAbsoluteFilenameAt : Int → List Char) (s : Sequence) :
    Nat → Int → List (List Char) → Option (List (List Char))
  | 0, _, _ => none
  | fuel + 1, t, allPaths =>
    if t ≤ s._lastTime then
      getFilesLoop getAbsoluteFilenameAt s fuel (toTime (t + (s._step : Int)))
        (allPaths ++ [getAbsoluteFilenameAt t])
    else some allPaths

/-- The function `Sequence::getFiles`; `none` when the loop is not over within the
bound. -/
def getFiles (fuel : Nat) (getAbsoluteFilenameAt : Int → List Char) (s : Sequence) :
    Option (List (List Char)) :=
  getFilesLoop getAbsoluteFilenameAt s fuel s._firstTime []

/-- The times `firstTime, firstTime + step, ...` of the first `n` frames. -/
def frameTimes (s : Sequence) (n : Nat) : List Int :=
  (List.range n).map (fun (k : Nat) => s._firstTime + (k : Int) * (s._step : Int))

/-! ## `browse` -/

/-- The type tag `EType` of an item. -/
inductive EType where
  | eTypeUndefined
  | eTypeFolder
  | eTypeFile
  | eTypeSequence
  deriving DecidableEq, Repr

/-- The two constructors of `Item` that `browse` calls: `Item( type, filename, folder )`
and `Item( sequence, folder )`. -/
inductive Item where
  | ofFilename (type : EType) (filename : List Char) (folder : List Char)
  | ofSequence (sequence : Sequence) (folder : List Char)
  deriving DecidableEq, Repr

/-- What `browse` gets from functions that are not among the sources and from the file
system: the outcome of `detectDirectoryInResearch` and the directory it leaves in
`tmpDir`, the filenames of the entries of that directory, the two filter tests,
`bfs::is_directory` on an entry and on the first file of a sequence, and the accessor
`getFirstFilename` of a sequence. -/
structure BrowseEnv where
  detectDirectoryInResearch : Bool
  directory : List Char
  entries : List (List Char)
  filepathRespectsAllFilters : List Char → Bool
  filenameRespectsFilters : List Char → Bool
  entryIsDirectory : List Char → Bool
  firstFileIsDirectory : Sequence → Bool
  getFirstFilename : Sequence → List Char

/-- The first loop of `browse`, over the entries of the directory: an entry that passes
the filters joins the group of its strings when it has a number, and is a file or folder
item otherwise. -/
def browseEntries (env : BrowseEnv) (detectOptions : EDetection) :
    List (List Char) → List Item → List (List (List Char) × List FileNumbers) →
      List Item × List (List (List Char) × List FileNumbers)
  | [], output, sequences => (output, sequences)
  | name :: names, output, sequences =>
    if env.filepathRespectsAllFilters name && env.filenameRespectsFilters name then
      let d := decomposeFilename name detectOptions
      if d.2.length ≠ 0 then
        browseEntries env detectOptions names output (insertGroup d.1 d.2 sequences)
      else
        let type := if env.entryIsDirectory name then EType.eTypeFolder else EType.eTypeFile
        browseEntries env detectOptions names
          (output ++ [Item.ofFilename type name env.directory]) sequences
    else browseEntries env detectOptions names output sequences

/-- The body of the inner loop of `browse` for one sequence `s` of `buildSequences`: the
items pushed to `output`. -/
def emitSequence (env : BrowseEnv) (detectOptions : EDetection) (s : Sequence) : List Item :=
  if env.firstFileIsDirectory s then []
  else if detectOptions.sequenceNeedAtLeastTwoFiles && s._nbFiles == 1 then
    [Item.ofFilename EType.eTypeFile (env.getFirstFilename s) env.directory]
  else [Item.ofSequence s env.directory]

/-- The second loop of `browse`, over the groups and over the sequences that
`buildSequences` returns for each group. -/
def browseSequences (env : BrowseEnv) (detectOptions : EDetection)
    (sequences : List (List (List Char) × List FileNumbers)) : List Item :=
  ((sequences.map (fun p => buildSequences p.1 p.2)).flatten.map
    (emitSequence env detectOptions)).flatten

/-- The function `browse`. -/
def browse (env : BrowseEnv) (detectOptions : EDetection) : List Item :=
  if !env.detectDirectoryInResearch then []
  else
    let r := browseEntries env detectOptions env.entries [] []
    r.1 ++ browseSequences env detectOptions r.2

/-- Modelled from the spec: the first filename of a sequence (the accessor is in a header
that is not among the sources), the rendering of `firstTime` of section 4.4. -/
def firstFilename (s : Sequence) : List Char :=
  s._prefix ++ renderNumber s._firstTime s._padding s._strictPadding ++ s._suffix

/-- A directory `dir` with the files `a.1.exr`, `a.2.exr`, `shot.7.exr` and `notes`, no
filter and no sub-directory. -/
def sampleBrowseEnv : BrowseEnv :=
  { detectDirectoryInResearch := true
    directory := "dir".toList
    entries := ["a.1.exr".toList, "notes".toList, "a.2.exr".toList, "shot.7.exr".toList]
    filepathRespectsAllFilters := fun _ => true
    filenameRespectsFilters := fun _ => true
    entryIsDirectory := fun _ => false
    firstFileIsDirectory := fun _ => false
    getFirstFilename := firstFilename }

/-- The detection option `SequenceNeedsAtLeastTwoFiles` alone. -/
def needAtLeastTwoFiles : EDetection :=
  { defaultDetection with sequenceNeedAtLeastTwoFiles := true }

/-! ## `Sequence::init` from a pattern -/

/-- The overload `Sequence::init( pattern, firstTime, lastTime, step, accept )`. The result
is `none` when an exception leaves `retrieveInfosFromPattern`, otherwise the returned
boolean and the sequence. `step` is a `Time` stored in the `std::size_t` member. -/
def init (s : Sequence) (pattern : List Char) (firstTime lastTime step : Int)
    (accept : EPattern) : Option (Bool × Sequence) :=
  match retrieveInfosFromPattern pattern accept s with
  | none => none
  | some (false, s1) => some (false, s1)
  | some (true, s1) =>
    some (true, { s1 with _firstTime := firstTime, _lastTime := lastTime,
                          _step := toSizeT step, _nbFiles := 0 })

/-- A string that reads completely as the signed 64-bit decimal integer `v`: an optional
`+` or `-`, then one or more decimal digits and nothing else, with the value in
`[-2^63, 2^63)`. -/
def SignedDecimal64 (str : List Char) (v : Int) : Prop :=
  ∃ sign digits : List Char, str = sign ++ digits ∧
    (sign = [] ∨ sign = ['+'] ∨ sign = ['-']) ∧
    digits ≠ [] ∧ (∀ c ∈ digits, digit c = true) ∧
    v = (if sign = ['-'] then -(decimalValue digits : Int) else (decimalValue digits : Int)) ∧
    -(2 ^ 63) ≤ v ∧ v < 2 ^ 63

/-! ## Time strings that the rendering reproduces

The rendering of section 4.4 writes a number as decimal digits, zero-padded to the padding,
after a `-` when it is negative. These predicates say when a time string of a filename is
written that way. -/

/-- The digits of a time string: what follows a leading `-`, or the whole string. -/
def digitsOf (timeStr : List Char) : List Char :=
  match timeStr with
  | [] => []
  | c :: d => if c = '-' then d else c :: d

/-- A time string in the form that `renderNumber` writes: one or more decimal digits,
after a `-` only when the number is not zero (no `+`, no `-0`). -/
def PlainNumber (timeStr : List Char) : Prop :=
  digitsOf timeStr ≠ [] ∧ (∀ c ∈ digitsOf timeStr, digit c = true) ∧
  (timeStr ≠ digitsOf timeStr → decimalValue (digitsOf timeStr) ≠ 0)

instance decPlainNumber (timeStr : List Char) : Decidable (PlainNumber timeStr) := by
  unfold PlainNumber
  infer_instance

/-- A time string without a leading zero: its digits are `0` alone, or do not start with
`0`. -/
def NoLeadingZero (timeStr : List Char) : Prop :=
  digitsOf timeStr = ['0'] ∨ charAt0 (digitsOf timeStr) ≠ '0'

instance decNoLeadingZero (timeStr : List Char) : Decidable (NoLeadingZero timeStr) := by
  unfold NoLeadingZero
  infer_instance

/-- A time string that fits a padding: it has `padding` digits, or it has no leading zero
and at least `padding` digits. -/
def FitsPadding (timeStr : List Char) (padding : Nat) : Prop :=
  (digitsOf timeStr).length = padding ∨
  (NoLeadingZero timeStr ∧ padding ≤ (digitsOf timeStr).length)

instance decFitsPadding (timeStr : List Char) (padding : Nat) :
    Decidable (FitsPadding timeStr padding) := by
  unfold FitsPadding
  infer_instance

/-- The sequence that `initFromDetection` builds for the pattern `a.#.exr` in a directory
with the files `a.01.exr`, `a.02.exr` and `a.10.exr`. -/
def uniformWidthSequence : Sequence :=
  { _prefix := "a.".toList, _suffix := ".exr".toList, _strictPadding := true, _padding := 2,
    _step := 1, _firstTime := 1, _lastTime := 10, _nbFiles := 3 }

/-- The sequence that `initFromDetection` builds for the pattern `a.####.exr` in a
directory whose only accepted file is `a.0005.exr`. -/
def paddedSingleSequence : Sequence :=
  { _prefix := "a.".toList, _suffix := ".exr".toList, _strictPadding := true, _padding := 4,
    _step := 1, _firstTime := 5, _lastTime := 5, _nbFiles := 0 }

/-! ## Theorems -/

/-! ### Sets as strictly increasing lists -/

theorem mem_setInsert (x y : Nat) (l : List Nat) :
    y ∈ setInsert x l ↔ y = x ∨ y ∈ l := by
  induction l with
  | nil => simp [setInsert]
  | cons z zs ih =>
    unfold setInsert
    by_cases h1 : x < z
    · simp [h1]
    · by_cases h2 : x = z
      · subst h2
        simp
      · simp only [h1, h2, if_false, List.mem_cons, ih]
        tauto

theorem setInsert_ne_nil (x : Nat) (l : List Nat) : setInsert x l ≠ [] := by
  intro h
  have := (mem_setInsert x x l).2 (Or.inl rfl)
  rw [h] at this
  exact List.not_mem_nil _ this

theorem length_setInsert_le (x : Nat) (l : List Nat) :
    (setInsert x l).length ≤ l.length + 1 := by
  induction l with
  | nil => simp [setInsert]
  | cons z zs ih =>
    unfold setInsert
    by_cases h1 : x < z
    · simp [h1]
    · by_cases h2 : x = z
      · simp [h2]
      · simp only [h1, h2, if_false, List.length_cons]
        omega

theorem dvd_listGcd_iff (d : Nat) (l : List Nat) :
    d ∣ listGcd l ↔ ∀ x ∈ l, d ∣ x := by
  induction l with
  | nil => simp [listGcd]
  | cons a l ih =>
    have : listGcd (a :: l) = Nat.gcd a (listGcd l) := rfl
    rw [this, Nat.dvd_gcd_iff, ih]
    simp

theorem listGcd_eq_of_dvd_iff (l : List Nat) (g : Nat)
    (h : ∀ d, (∀ x ∈ l, d ∣ x) ↔ d ∣ g) : listGcd l = g := by
  apply Nat.dvd_antisymm
  · exact (h _).1 ((dvd_listGcd_iff _ _).1 dvd_rfl)
  · exact (dvd_listGcd_iff _ _).2 ((h g).2 dvd_rfl)

/-! ### The two loops of `extractStep` -/

theorem mem_gcdNeighbours_of_mem (l acc : List Nat) (x : Nat) (hx : x ∈ acc) :
    x ∈ gcdNeighbours l acc := by
  induction l generalizing acc with
  | nil => simpa [gcdNeighbours] using hx
  | cons a l ih =>
    cases l with
    | nil => simpa [gcdNeighbours] using hx
    | cons b rest =>
      rw [gcdNeighbours]
      exact ih _ ((mem_setInsert _ _ _).2 (Or.inr hx))

theorem length_gcdNeighbours_le (l acc : List Nat) :
    (gcdNeighbours l acc).length ≤ acc.length + (l.length - 1) := by
  induction l generalizing acc with
  | nil => simp [gcdNeighbours]
  | cons a l ih =>
    cases l with
    | nil => simp [gcdNeighbours]
    | cons b rest =>
      rw [gcdNeighbours]
      have h1 := ih (setInsert (greatestCommonDivisor b a) acc)
      have h2 := length_setInsert_le (greatestCommonDivisor b a) acc
      simp only [List.length_cons] at h1 ⊢
      omega

theorem dvd_gcdNeighbours_iff (d a : Nat) (l acc : List Nat) :
    (∀ x ∈ gcdNeighbours (a :: l) acc, d ∣ x) ↔
      (∀ x ∈ acc, d ∣ x) ∧ (l ≠ [] → d ∣ a ∧ ∀ x ∈ l, d ∣ x) := by
  induction l generalizing a acc with
  | nil => simp [gcdNeighbours]
  | cons b rest ih =>
    rw [gcdNeighbours, ih]
    simp only [mem_setInsert, greatestCommonDivisor, ne_eq, List.cons_ne_nil, not_false_eq_true,
      forall_true_left, List.mem_cons, forall_eq_or_imp, Nat.dvd_gcd_iff]
    by_cases hr : rest = []
    · subst hr
      simp
      tauto
    · simp [hr]
      tauto

theorem extractStepSet_eq (fuel : Nat) (s : Sequence) (steps : List Nat)
    (hne : steps ≠ []) (hfuel : steps.length ≤ fuel) :
    extractStepSet fuel s steps = some { s with _step := listGcd steps } := by
  induction fuel generalizing steps with
  | zero =>
    cases steps with
    | nil => exact absurd rfl hne
    | cons a l => simp at hfuel
  | succ n ih =>
    match steps, hne, hfuel with
    | [x], _, _ => simp [extractStepSet, listGcd]
    | a :: b :: rest, _, hfuel =>
      rw [extractStepSet]
      have hne2 : gcdNeighbours (a :: b :: rest) [] ≠ [] := by
        rw [gcdNeighbours]
        intro h
        have := mem_gcdNeighbours_of_mem (b :: rest) _ _
          ((mem_setInsert _ _ []).2 (Or.inl (rfl : greatestCommonDivisor b a = _)))
        rw [h] at this
        exact List.not_mem_nil _ this
      have hlen := length_gcdNeighbours_le (a :: b :: rest) []
      simp only [List.length_cons, List.length_nil] at hlen hfuel
      rw [ih _ hne2 (by omega)]
      congr 2
      apply listGcd_eq_of_dvd_iff
      intro d
      rw [dvd_gcdNeighbours_iff, dvd_listGcd_iff]
      simp

theorem mem_diffNeighbours_of_mem (l : List Int) (acc : List Nat) (x : Nat) (hx : x ∈ acc) :
    x ∈ diffNeighbours l acc := by
  induction l generalizing acc with
  | nil => simpa [diffNeighbours] using hx
  | cons a l ih =>
    cases l with
    | nil => simpa [diffNeighbours] using hx
    | cons b rest =>
      rw [diffNeighbours]
      exact ih _ ((mem_setInsert _ _ _).2 (Or.inr hx))

theorem length_diffNeighbours_le (l : List Int) (acc : List Nat) :
    (diffNeighbours l acc).length ≤ acc.length + (l.length - 1) := by
  induction l generalizing acc with
  | nil => simp [diffNeighbours]
  | cons a l ih =>
    cases l with
    | nil => simp [diffNeighbours]
    | cons b rest =>
      rw [diffNeighbours]
      have h1 := ih (setInsert (toSizeT (b - a)) acc)
      have h2 := length_setInsert_le (toSizeT (b - a)) acc
      simp only [List.length_cons] at h1 ⊢
      omega

theorem diffNeighbours_ne_nil (l : List Int) (h : 2 ≤ l.length) : diffNeighbours l [] ≠ [] := by
  match l, h with
  | a :: b :: rest, _ =>
    rw [diffNeighbours]
    intro h
    have := mem_diffNeighbours_of_mem (b :: rest) _ _
      ((mem_setInsert _ _ []).2 (Or.inl (rfl : toSizeT (b - a) = _)))
    rw [h] at this
    exact List.not_mem_nil _ this

theorem dvd_diffNeighbours_iff (d : Nat) (l : List Int) (acc : List Nat) :
    (∀ x ∈ diffNeighbours l acc, d ∣ x) ↔
      (∀ x ∈ acc, d ∣ x) ∧ ∀ z ∈ deltas l, d ∣ toSizeT z := by
  induction l generalizing acc with
  | nil => simp [diffNeighbours, deltas]
  | cons a l ih =>
    cases l with
    | nil => simp [diffNeighbours, deltas]
    | cons b rest =>
      rw [diffNeighbours, ih, deltas]
      simp only [mem_setInsert, List.mem_cons, forall_eq_or_imp]
      tauto

theorem dvd_gcdOfList_iff (d : Nat) (l : List Int) :
    d ∣ gcdOfList l ↔ ∀ z ∈ l, d ∣ z.natAbs := by
  induction l with
  | nil => simp [gcdOfList]
  | cons a l ih =>
    have : gcdOfList (a :: l) = Nat.gcd a.natAbs (gcdOfList l) := rfl
    rw [this, Nat.dvd_gcd_iff, ih]
    simp

/-- The step that `extractStep` stores for at least two times, whatever their order. -/
theorem extractStep_eq (fuel : Nat) (s : Sequence) (times : List Int)
    (hlen : 2 ≤ times.length) (hfuel : times.length ≤ fuel) :
    extractStep fuel s times = some { s with _step := listGcd (diffNeighbours times []) } := by
  unfold extractStep
  rw [if_neg (by omega)]
  apply extractStepSet_eq _ _ _ (diffNeighbours_ne_nil _ hlen)
  have := length_diffNeighbours_le times []
  simp only [List.length_nil] at this
  omega

theorem deltas_pos (times : List Int) (hinc : StrictlyIncreasing times)
    (hrange : ∀ t ∈ times, isTime t) : ∀ z ∈ deltas times, 0 < z ∧ z < 2 ^ 64 := by
  induction times with
  | nil => simp [deltas]
  | cons a l ih =>
    cases l with
    | nil => simp [deltas]
    | cons b rest =>
      intro z hz
      rw [deltas, List.mem_cons] at hz
      have hab : a < b := hinc.1
      rcases hz with rfl | hz
      · have ha := hrange a (by simp)
        have hb := hrange b (by simp)
        unfold isTime at ha hb
        omega
      · exact ih hinc.2 (fun t ht => hrange t (List.mem_cons_of_mem _ ht)) z hz

theorem toSizeT_of_pos (z : Int) (h : 0 < z ∧ z < 2 ^ 64) : toSizeT z = z.natAbs := by
  unfold toSizeT
  rw [Int.emod_eq_of_lt (le_of_lt h.1) h.2]
  omega

theorem listGcd_diffNeighbours (times : List Int) (hinc : StrictlyIncreasing times)
    (hrange : ∀ t ∈ times, isTime t) :
    listGcd (diffNeighbours times []) = gcdOfList (deltas times) := by
  apply listGcd_eq_of_dvd_iff
  intro d
  rw [dvd_diffNeighbours_iff, dvd_gcdOfList_iff]
  simp only [List.not_mem_nil, false_implies, implies_true, true_and]
  constructor
  · intro h z hz
    rw [← toSizeT_of_pos z (deltas_pos times hinc hrange z hz)]
    exact h z hz
  · intro h z hz
    rw [toSizeT_of_pos z (deltas_pos times hinc hrange z hz)]
    exact h z hz

/-- On strictly increasing times the stored step is the gcd of the differences. -/
theorem extractStep_increasing (fuel : Nat) (s : Sequence) (times : List Int)
    (hlen : 2 ≤ times.length) (hinc : StrictlyIncreasing times)
    (hrange : ∀ t ∈ times, isTime t) (hfuel : times.length ≤ fuel) :
    extractStep fuel s times = some { s with _step := gcdOfList (deltas times) } := by
  rw [extractStep_eq fuel s times hlen hfuel, listGcd_diffNeighbours times hinc hrange]

/-- C1: for a strictly increasing list of at least two frame times, the sorted-times
overload of `extractStep` returns (with any recursion budget of at least the number of
times) and stores in `_step` the greatest common divisor of all consecutive differences
`times[i+1] - times[i]`: it divides each of them and every common divisor divides it. -/
theorem extractStep_sets_gcd_of_deltas (fuel : Nat) (s : Sequence) (times : List Int)
    (hlen : 2 ≤ times.length) (hinc : StrictlyIncreasing times)
    (hrange : ∀ t ∈ times, isTime t) (hfuel : times.length ≤ fuel) :
    extractStep fuel s times = some { s with _step := gcdOfList (deltas times) } ∧
    (∀ z ∈ deltas times, (gcdOfList (deltas times) : Int) ∣ z) ∧
    (∀ d : Int, (∀ z ∈ deltas times, d ∣ z) → d ∣ (gcdOfList (deltas times) : Int)) := by
  refine ⟨extractStep_increasing fuel s times hlen hinc hrange hfuel, ?_, ?_⟩
  · intro z hz
    exact Int.natCast_dvd.2 ((dvd_gcdOfList_iff _ _).1 dvd_rfl z hz)
  · intro d hd
    rw [← Int.natAbs_dvd_natAbs, Int.natAbs_ofNat, dvd_gcdOfList_iff]
    intro z hz
    exact Int.natAbs_dvd_natAbs.2 (hd z hz)

theorem extractStep_sets_gcd_of_deltas_witness :
    extractStep 4 emptySequence [1, 3, 5, 9] = some { emptySequence with _step := 2 } ∧
    extractStep 3 emptySequence [1, 4, 10] = some { emptySequence with _step := 3 } := by
  have h1 := (extractStep_sets_gcd_of_deltas 4 emptySequence [1, 3, 5, 9] (by decide) (by decide)
    (by decide) (by decide)).1
  have h2 := (extractStep_sets_gcd_of_deltas 3 emptySequence [1, 4, 10] (by decide) (by decide)
    (by decide) (by decide)).1
  exact ⟨h1, h2⟩

/-! ### The Standard pattern -/

theorem take_length_sub (a b : List Char) : (a ++ b).take ((a ++ b).length - b.length) = a := by
  simp

theorem starLazy_of_some (pr : Char → Bool) (k : List Char → Option Captures) (rest : List Char)
    (r : Captures) (h : k rest = some r) : starLazy pr rest k = some r := by
  cases rest with
  | nil => simpa [starLazy] using h
  | cons c cs => simp [starLazy, h]

theorem starLazy_skip (pr : Char → Bool) (k : List Char → Option Captures) (p rest : List Char)
    (hp : ∀ c ∈ p, pr c = true)
    (hk : ∀ p1 p2, p = p1 ++ p2 → p2 ≠ [] → k (p2 ++ rest) = none) :
    starLazy pr (p ++ rest) k = starLazy pr rest k := by
  induction p with
  | nil => rfl
  | cons x xs ih =>
    have h0 : k (x :: (xs ++ rest)) = none := hk [] (x :: xs) rfl (by simp)
    have hx : pr x = true := hp x (by simp)
    rw [List.cons_append, starLazy, h0]
    simp only [hx, if_true]
    apply ih (fun c hc => hp c (List.mem_cons_of_mem _ hc))
    intro p1 p2 h12 hne
    exact hk (x :: p1) p2 (by rw [h12]; rfl) hne

theorem starLazy_to_end (k : List Char → Option Captures) (s : List Char)
    (hk : ∀ rest, rest ≠ [] → k rest = none) : starLazy anyChar s k = k [] := by
  induction s with
  | nil => rfl
  | cons x xs ih =>
    rw [starLazy, hk (x :: xs) (by simp)]
    simpa [anyChar] using ih

theorem starGreedy_stop (pr : Char → Bool) (k : List Char → Option Captures) (rest : List Char)
    (h : ∀ c, rest.head? = some c → pr c = false) : starGreedy pr rest k = k rest := by
  cases rest with
  | nil => rfl
  | cons c cs =>
    have := h c rfl
    simp [starGreedy, this]

theorem starGreedy_all (pr : Char → Bool) (k : List Char → Option Captures) (q rest : List Char)
    (r : Captures) (hq : ∀ c ∈ q, pr c = true) (h : starGreedy pr rest k = some r) :
    starGreedy pr (q ++ rest) k = some r := by
  induction q with
  | nil => exact h
  | cons x xs ih =>
    have hx : pr x = true := hq x (by simp)
    rw [List.cons_append, starGreedy]
    simp [hx, ih (fun c hc => hq c (List.mem_cons_of_mem _ hc))]

theorem hashes_fail (R : Regex) (x : Char) (xs : List Char) (caps : Captures)
    (k : List Char → Captures → Option Captures) (h1 : x ≠ '#') (h2 : x ≠ '@') :
    (Regex.seq hashesOrAts R).run (x :: xs) caps k = none := by
  simp [hashesOrAts, Regex.run, lit, h1, h2]

theorem hashes_match (R : Regex) (c : Char) (n : Nat) (s : List Char) (caps : Captures)
    (k : List Char → Captures → Option Captures) (r : Captures)
    (hn : 1 ≤ n) (hc : c = '#' ∨ c = '@') (hs : s.head? ≠ some c)
    (h : R.run s (caps.set 2 (List.replicate n c)) k = some r) :
    (Regex.seq hashesOrAts R).run (List.replicate n c ++ s) caps k = some r := by
  obtain ⟨m, rfl⟩ : ∃ m, n = m + 1 := ⟨n - 1, by omega⟩
  have hstop : ∀ (K : List Char → Option Captures), K s = some r →
      starGreedy (lit c) (List.replicate m c ++ s) K = some r := by
    intro K hK
    apply starGreedy_all
    · intro x hx
      simp [lit, List.eq_of_mem_replicate hx]
    · rw [starGreedy_stop]
      · exact hK
      · intro x hx
        have : x ≠ c := fun hxc => hs (hxc ▸ hx)
        simp [lit, this]
  have htake : ((c :: List.replicate m c) ++ s).take
      (((c :: List.replicate m c) ++ s).length - s.length) = List.replicate (m + 1) c :=
    take_length_sub _ _
  rw [List.replicate_succ] at h ⊢
  rcases hc with rfl | rfl
  · simp only [hashesOrAts, Regex.run, List.cons_append, lit, beq_self_eq_true, if_true]
    rw [hstop _ (by
      show R.run s _ k = some r
      rw [← List.cons_append, htake, List.replicate_succ]; exact h)]
  · have hne : ('@' == '#') = false := by decide
    simp only [hashesOrAts, Regex.run, List.cons_append, lit, hne, beq_self_eq_true, if_true]
    simp only [Bool.false_eq_true, if_false]
    rw [hstop _ (by
      show R.run s _ k = some r
      rw [← List.cons_append, htake, List.replicate_succ]; exact h)]

theorem tail_match (s : List Char) (caps : Captures) (hs : s.head? ≠ some ']') :
    (Regex.seq (.opt (.chr (lit ']'))) (.group 3 (.lazyStar anyChar))).run s caps
      (fun rest caps => if rest = [] then some caps else none) = some (caps.set 3 s) := by
  have h1 : (Regex.chr (lit ']')).run s caps
      (fun rest caps1 => (Regex.group 3 (.lazyStar anyChar)).run rest caps1
        (fun rest caps => if rest = [] then some caps else none)) = none := by
    cases s with
    | nil => rfl
    | cons x xs =>
      have : x ≠ ']' := fun h => hs (by simp [h])
      simp [Regex.run, lit, this]
  simp only [Regex.run] at h1 ⊢
  rw [h1]
  simp only
  rw [starLazy_to_end]
  · simp
  · intro rest hrest
    simp [hrest]

theorem before_hashes_fail (R : Regex) (p2 tail : List Char) (caps : Captures)
    (k : List Char → Captures → Option Captures)
    (hp : ∀ x ∈ p2, x ≠ '#' ∧ x ≠ '@') (hne : p2 ≠ []) (hlast : p2.getLast? ≠ some '[') :
    (Regex.seq (.opt (.chr (lit '['))) (.seq hashesOrAts R)).run (p2 ++ tail) caps k = none := by
  match p2, hne with
  | x :: xs, _ =>
    have hx := hp x (by simp)
    have h0 : (Regex.seq hashesOrAts R).run (x :: (xs ++ tail)) caps k = none :=
      hashes_fail R x _ caps k hx.1 hx.2
    have h1 : (Regex.chr (lit '[')).run (x :: (xs ++ tail)) caps
        (fun rest caps1 => (Regex.seq hashesOrAts R).run rest caps1 k) = none := by
      by_cases hb : x = '['
      · subst hb
        match xs, hlast with
        | [], hlast => exact absurd rfl hlast
        | y :: ys, _ =>
          have hy := hp y (by simp)
          simpa [Regex.run, lit] using hashes_fail R y (ys ++ tail) caps k hy.1 hy.2
      · simp [Regex.run, lit, hb]
    rw [List.cons_append]
    rw [Regex.run, Regex.run, h1]
    exact h0

theorem regex_match_standard (p s : List Char) (c : Char) (n : Nat)
    (hn : 1 ≤ n) (hc : c = '#' ∨ c = '@')
    (hp : ∀ x ∈ p, x ≠ '#' ∧ x ≠ '@') (hlast : p.getLast? ≠ some '[')
    (hs1 : s.head? ≠ some c) (hs2 : s.head? ≠ some ']') :
    regex_match (p ++ List.replicate n c ++ s) regexPatternStandard =
      some [[], p, List.replicate n c, s] := by
  unfold regex_match regexPatternStandard
  rw [Regex.run, Regex.run, Regex.run, List.append_assoc, starLazy_skip]
  · apply starLazy_of_some
    have hcb : c ≠ '[' := by rcases hc with rfl | rfl <;> decide
    obtain ⟨m, rfl⟩ : ∃ m, n = m + 1 := ⟨n - 1, by omega⟩
    have htake : (p ++ (List.replicate (m + 1) c ++ s)).take
        ((p ++ (List.replicate (m + 1) c ++ s)).length -
          (List.replicate (m + 1) c ++ s).length) = p := take_length_sub _ _
    rw [htake, Regex.run, Regex.run]
    have h1 : (Regex.chr (lit '[')).run (List.replicate (m + 1) c ++ s) ([[], [], [], []].set 1 p)
        (fun rest caps1 => (Regex.seq hashesOrAts (.seq (.opt (.chr (lit ']')))
          (.group 3 (.lazyStar anyChar)))).run rest caps1
            (fun rest caps => if rest = [] then some caps else none)) = none := by
      simp [List.replicate_succ, Regex.run, lit, hcb]
    rw [h1]
    simp only
    apply hashes_match _ c (m + 1) s _ _ _ (by omega) hc hs1
    rw [tail_match s _ hs2]
    rfl
  · intro x _
    rfl
  · intro p1 p2 h12 hne
    apply before_hashes_fail
    · intro x hx
      exact hp x (by rw [h12]; exact List.mem_append_right _ hx)
    · exact hne
    · rw [h12, List.getLast?_append_of_ne_nil _ hne] at hlast
      exact hlast

theorem c_str_of_no_nul (s : List Char) (h : ∀ x ∈ s, x ≠ '\x00') : c_str s = s := by
  unfold c_str
  rw [List.takeWhile_eq_self_iff]
  intro x hx
  simpa using h x hx

/-- C2: for a pattern `p ++ c^n ++ s` with `n ≥ 1`, `c` one of `#` and `@`, no `#` and no
`@` in `p`, `p` not ending with `[`, and `s` not starting with `c` or `]` (the pattern
being a C string, without NUL), `retrieveInfosFromPattern` with the Standard form
accepted returns true and stores `p` as prefix, `s` as suffix, `n` as padding, and a
strict padding that is true exactly when `c` is `#`. -/
theorem retrieveInfosFromPattern_standard (p s : List Char) (c : Char) (n : Nat)
    (accept : EPattern) (sq : Sequence) (hacc : accept.standard = true)
    (hn : 1 ≤ n) (hc : c = '#' ∨ c = '@')
    (hp : ∀ x ∈ p, x ≠ '#' ∧ x ≠ '@') (hlast : p.getLast? ≠ some '[')
    (hs1 : s.head? ≠ some c) (hs2 : s.head? ≠ some ']')
    (hnul : ∀ x ∈ p ++ s, x ≠ '\x00') :
    retrieveInfosFromPattern (p ++ List.replicate n c ++ s) accept sq =
      some (true, { sq with _prefix := p, _suffix := s, _padding := n,
                            _strictPadding := c == '#' }) := by
  have hcs : c_str (p ++ List.replicate n c ++ s) = p ++ List.replicate n c ++ s := by
    apply c_str_of_no_nul
    intro x hx
    simp only [List.mem_append] at hx hnul
    rcases hx with (hx | hx) | hx
    · exact hnul x (Or.inl hx)
    · rw [List.eq_of_mem_replicate hx]
      rcases hc with rfl | rfl <;> decide
    · exact hnul x (Or.inr hx)
  unfold retrieveInfosFromPattern
  rw [hcs, hacc, if_pos rfl, regex_match_standard p s c n hn hc hp hlast hs1 hs2]
  obtain ⟨m, rfl⟩ : ∃ m, n = m + 1 := ⟨n - 1, by omega⟩
  simp [storeAffixes, charAt0, List.replicate_succ]

theorem retrieveInfosFromPattern_standard_witness :
    retrieveInfosFromPattern "img.####.exr".toList acceptStandard emptySequence =
      some (true, { emptySequence with _prefix := "img.".toList, _suffix := ".exr".toList,
                                       _padding := 4, _strictPadding := true }) :=
  retrieveInfosFromPattern_standard "img.".toList ".exr".toList '#' 4 acceptStandard
    emptySequence rfl (by decide) (by decide) (by decide) (by decide) (by decide) (by decide)
    (by decide)

/-! ### Padding -/

theorem setInsert_sorted (x : Nat) (l : List Nat) (h : l.Sorted (· < ·)) :
    (setInsert x l).Sorted (· < ·) := by
  induction l with
  | nil => simp [setInsert]
  | cons y ys ih =>
    unfold setInsert
    by_cases h1 : x < y
    · simp only [h1, if_true]
      refine List.sorted_cons.2 ⟨?_, h⟩
      intro b hb
      rcases List.mem_cons.1 hb with rfl | hb
      · exact h1
      · exact lt_trans h1 (List.rel_of_sorted_cons h b hb)
    · by_cases h2 : x = y
      · simp only [h1, h2, if_true, if_false]
        simpa [h2] using h
      · simp only [h1, h2, if_false]
        refine List.sorted_cons.2 ⟨?_, ih (List.sorted_cons.1 h).2⟩
        intro b hb
        rcases (mem_setInsert x b ys).1 hb with rfl | hb
        · omega
        · exact List.rel_of_sorted_cons h b hb

theorem setOfList_aux (l acc : List Nat) (h : acc.Sorted (· < ·)) :
    (l.foldl (fun acc x => setInsert x acc) acc).Sorted (· < ·) ∧
      ∀ x, x ∈ l.foldl (fun acc x => setInsert x acc) acc ↔ x ∈ acc ∨ x ∈ l := by
  induction l generalizing acc with
  | nil => simp [h]
  | cons a l ih =>
    have := ih (setInsert a acc) (setInsert_sorted a acc h)
    refine ⟨this.1, fun x => ?_⟩
    rw [List.foldl_cons, this.2, mem_setInsert, List.mem_cons]
    tauto

theorem setOfList_sorted (l : List Nat) : (setOfList l).Sorted (· < ·) :=
  (setOfList_aux l [] List.sorted_nil).1

theorem mem_setOfList (l : List Nat) (x : Nat) : x ∈ setOfList l ↔ x ∈ l := by
  have := (setOfList_aux l [] List.sorted_nil).2 x
  simpa [setOfList] using this

theorem setErase_eq_erase (x : Nat) (l : List Nat) : setErase x l = l.erase x := by
  induction l with
  | nil => rfl
  | cons y ys ih =>
    by_cases h : x = y
    · subst h
      simp [setErase]
    · have h' : y ≠ x := fun e => h e.symm
      simp [setErase, h, ih, List.erase_cons_tail, h']

/-- The set `pad` of `extractPadding`: the paddings of the tuples with 0 removed. -/
theorem pad_toFinset (l : List Nat) :
    (setErase 0 (setOfList l)).Nodup ∧
      (setErase 0 (setOfList l)).toFinset = l.toFinset.erase 0 := by
  have hnd : (setOfList l).Nodup := (setOfList_sorted l).nodup
  rw [setErase_eq_erase]
  refine ⟨hnd.erase 0, ?_⟩
  ext x
  simp [hnd.mem_erase_iff, mem_setOfList]

/-- C3: for a non-empty range of number tuples and a slot `i`, with `P` the set of the
paddings of the tuples at slot `i` with 0 removed, the `FileNumbers` overload of
`extractPadding` returns and changes `_padding` only: to 0 if `P` is empty, to `p` if
`P = {p}`, and to 0 if `P` has two or more elements. -/
theorem extractPadding_fileNumbers_padding (s : Sequence) (times : List FileNumbers) (i : Nat)
    (hne : times ≠ []) :
    ∃ pad : Nat, extractPaddingFileNumbers s times i = some { s with _padding := pad } ∧
      (((times.map (fun t => FileNumbers.getPadding t i)).toFinset.erase 0) = ∅ → pad = 0) ∧
      (∀ p, ((times.map (fun t => FileNumbers.getPadding t i)).toFinset.erase 0) = {p} →
        pad = p) ∧
      (2 ≤ ((times.map (fun t => FileNumbers.getPadding t i)).toFinset.erase 0).card →
        pad = 0) := by
  have hlen : times.length ≠ 0 := by
    cases times with
    | nil => exact absurd rfl hne
    | cons a l => simp
  obtain ⟨hnd, hfs⟩ := pad_toFinset (times.map (fun t => FileNumbers.getPadding t i))
  have hcard := List.toFinset_card_of_nodup hnd
  rw [hfs] at hcard
  unfold extractPaddingFileNumbers
  rw [if_neg hlen]
  simp only
  generalize setErase 0 (setOfList (times.map (fun t => FileNumbers.getPadding t i))) = pad
    at hnd hfs hcard
  generalize (times.map (fun t => FileNumbers.getPadding t i)).toFinset.erase 0 = P
    at hfs hcard
  match pad, hfs, hcard with
  | [], hfs, hcard =>
    refine ⟨0, by simp, fun _ => rfl, ?_, fun _ => rfl⟩
    intro p hp
    rw [hp] at hcard
    simp at hcard
  | [q], hfs, hcard =>
    refine ⟨q, by simp, ?_, ?_, ?_⟩
    · intro hP
      rw [hP] at hcard
      simp at hcard
    · intro p hp
      rw [hp] at hfs
      simpa using hfs
    · intro h2
      simp at hcard
      omega
  | a :: b :: rest, hfs, hcard =>
    refine ⟨0, by simp, fun _ => rfl, ?_, fun _ => rfl⟩
    intro p hp
    rw [hp] at hcard
    simp at hcard

theorem extractPadding_fileNumbers_padding_witness :
    ∃ pad : Nat, extractPaddingFileNumbers emptySequence
        [[{ sign := none, digits := "007".toList, value := 7 }],
         [{ sign := none, digits := "123".toList, value := 123 }]] 0 =
          some { emptySequence with _padding := pad } ∧ pad = 3 := by
  obtain ⟨pad, h1, _, h2, _⟩ := extractPadding_fileNumbers_padding emptySequence
    [[{ sign := none, digits := "007".toList, value := 7 }],
     [{ sign := none, digits := "123".toList, value := 123 }]] 0 (by decide)
  exact ⟨pad, h1, h2 3 (by decide)⟩

/-- C4: for every list of members and every padding value, both overloads of
`extractIsStrictPadding` set `_strictPadding` (and nothing else) to true if and only if
`padding > 0` and at least one member's frame-number string at the slot has `'0'` as
its first character, and to false otherwise. -/
theorem extractIsStrictPadding_iff (s : Sequence) (times : List FileNumbers) (i : Nat)
    (timesStr : List (List Char)) (padding : Nat) :
    (extractIsStrictPaddingFileNumbers s times i padding =
        { s with _strictPadding :=
            decide (0 < padding ∧ ∃ t ∈ times, (FileNumbers.getString t i).head? = some '0') }) ∧
    (extractIsStrictPadding s timesStr padding =
        { s with _strictPadding :=
            decide (0 < padding ∧ ∃ str ∈ timesStr, str.head? = some '0') }) := by
  have hc : ∀ str : List Char, (charAt0 str == '0') = true ↔ str.head? = some '0' := by
    intro str
    cases str with
    | nil => simp [charAt0]
    | cons c cs => simp [charAt0]
  constructor
  · unfold extractIsStrictPaddingFileNumbers
    by_cases hp : padding = 0
    · simp [hp]
    · have hpos : 0 < padding := Nat.pos_of_ne_zero hp
      by_cases hex : ∃ t ∈ times, (FileNumbers.getString t i).head? = some '0'
      · have : times.any (fun t => charAt0 (FileNumbers.getString t i) == '0') = true := by
          rw [List.any_eq_true]
          obtain ⟨t, ht, h0⟩ := hex
          exact ⟨t, ht, (hc _).2 h0⟩
        rw [if_neg hp, if_pos this, decide_eq_true (show 0 < padding ∧ _ from ⟨hpos, hex⟩)]
      · have : ¬ (times.any (fun t => charAt0 (FileNumbers.getString t i) == '0') = true) := by
          rw [List.any_eq_true]
          rintro ⟨t, ht, h0⟩
          exact hex ⟨t, ht, (hc _).1 h0⟩
        rw [if_neg hp, if_neg this, decide_eq_false (fun h : 0 < padding ∧ _ => hex h.2)]
  · unfold extractIsStrictPadding
    by_cases hp : padding = 0
    · simp [hp]
    · have hpos : 0 < padding := Nat.pos_of_ne_zero hp
      by_cases hex : ∃ str ∈ timesStr, str.head? = some '0'
      · have : timesStr.any (fun str => charAt0 str == '0') = true := by
          rw [List.any_eq_true]
          obtain ⟨t, ht, h0⟩ := hex
          exact ⟨t, ht, (hc _).2 h0⟩
        rw [if_neg hp, if_pos this, decide_eq_true (show 0 < padding ∧ _ from ⟨hpos, hex⟩)]
      · have : ¬ (timesStr.any (fun str => charAt0 str == '0') = true) := by
          rw [List.any_eq_true]
          rintro ⟨t, ht, h0⟩
          exact hex ⟨t, ht, (hc _).1 h0⟩
        rw [if_neg hp, if_neg this, decide_eq_false (fun h : 0 < padding ∧ _ => hex h.2)]

/-! ### Detection from a list of names -/

/-- The rule of section 4.3 on the six paths of the test `SimpleMultiSequenceMultiLevel`:
with the rightmost varying slot `c` as frame index for the whole group and a partition by
`b`, the modelled detection gives 4 candidates (`b = 2` with `c` in 1..3, and one
single-file candidate for each of `b = 3, 4, 5` with `c = 4`), under no detection option
2. Scenario 5 of the specification and the test give 2 for the same paths; the function
itself is not among the sources, so this settles nothing about it. -/
theorem simpleMultiSequenceMultiLevel_four :
    (sequenceFromFilenameList simpleMultiSequenceMultiLevelPaths defaultDetection).map
        (fun s => (s._prefix, s._suffix, s._firstTime, s._lastTime, s._nbFiles)) =
      [("a1b2c".toList, ".j2c".toList, 1, 3, 3), ("a1b3c".toList, ".j2c".toList, 4, 4, 1),
       ("a1b4c".toList, ".j2c".toList, 4, 4, 1), ("a1b5c".toList, ".j2c".toList, 4, 4, 1)] ∧
    ∀ options : EDetection,
      (sequenceFromFilenameList simpleMultiSequenceMultiLevelPaths options).length ≠ 2 := by
  refine ⟨by decide, ?_⟩
  intro options
  obtain ⟨a, b, c, d⟩ := options
  cases a <;> cases b <;> cases c <;> cases d <;> decide

/-! ### The step divides the distances to the first time -/

theorem gcdOfList_deltas_dvd (a : Int) (l : List Int) :
    ∀ t ∈ a :: l, (gcdOfList (deltas (a :: l)) : Int) ∣ t - a := by
  induction l generalizing a with
  | nil =>
    intro t ht
    simp at ht
    simp [ht]
  | cons b rest ih =>
    intro t ht
    have hg : gcdOfList (deltas (a :: b :: rest)) =
        Nat.gcd (b - a).natAbs (gcdOfList (deltas (b :: rest))) := rfl
    have h1 : (gcdOfList (deltas (a :: b :: rest)) : Int) ∣ b - a := by
      rw [hg]
      exact Int.natCast_dvd.2 (Nat.gcd_dvd_left _ _)
    have h2 : (gcdOfList (deltas (a :: b :: rest)) : Int) ∣
        (gcdOfList (deltas (b :: rest)) : Int) := by
      rw [hg]
      exact Int.natCast_dvd_natCast.2 (Nat.gcd_dvd_right _ _)
    rcases List.mem_cons.1 ht with rfl | ht
    · simp
    · have h3 := dvd_trans h2 (ih b t ht)
      have : t - a = (t - b) + (b - a) := by ring
      rw [this]
      exact dvd_add h3 h1

/-- C10: for a strictly increasing list of observed frame times `t_0 < t_1 < ... < t_n`
(`n ≥ 1`), `extractStep` returns and the step it stores divides `t_i - t_0` for every
`i`. -/
theorem extractStep_step_dvd_sub_first (fuel : Nat) (s : Sequence) (times : List Int)
    (hlen : 2 ≤ times.length) (hinc : StrictlyIncreasing times)
    (hrange : ∀ t ∈ times, isTime t) (hfuel : times.length ≤ fuel) :
    ∃ s1, extractStep fuel s times = some s1 ∧
      ∀ i, i < times.length → (s1._step : Int) ∣ times.getD i 0 - times.getD 0 0 := by
  refine ⟨_, extractStep_increasing fuel s times hlen hinc hrange hfuel, ?_⟩
  intro i hi
  match times, hlen with
  | a :: l, _ =>
    have hmem : (a :: l).getD i 0 ∈ a :: l := by
      rw [List.getD_eq_getElem _ _ hi]
      exact List.getElem_mem _
    simpa using gcdOfList_deltas_dvd a l _ hmem

theorem extractStep_step_dvd_sub_first_witness :
    ∃ s1, extractStep 4 emptySequence [1, 4, 10] = some s1 ∧
      ∀ i, i < 3 → (s1._step : Int) ∣ [(1 : Int), 4, 10].getD i 0 - 1 :=
  extractStep_step_dvd_sub_first 4 emptySequence [1, 4, 10] (by decide) (by decide) (by decide)
    (by decide)

/-- C9 (the code departs from the claim): on a sorted list `[t, t]` of two equal times,
such as `[1, 1]` for the two files `a.1.exr` and `a.01.exr`, `extractStep` stores the
step 0, which is not a positive integer. -/
theorem extractStep_equal_times_step_zero (fuel : Nat) (s : Sequence) (t : Int) :
    extractStep (fuel + 1) s [t, t] = some { s with _step := 0 } := by
  simp [extractStep, diffNeighbours, extractStepSet, toSizeT, setInsert]

/-! ### `isIn` and `initFromDetection` -/

theorem isIn_congr (s1 s2 : Sequence) (hp : s1._prefix = s2._prefix)
    (hs : s1._suffix = s2._suffix) (m : List Char) : isIn s1 m = isIn s2 m := by
  unfold isIn
  rw [hp, hs]

theorem isIn_some (s : Sequence) (m timeStr : List Char) (t : Int)
    (h : isIn s m = some (t, timeStr)) :
    m = s._prefix ++ timeStr ++ s._suffix ∧ lexicalCastTime timeStr = some t := by
  unfold isIn at h
  simp only at h
  split at h
  · exact absurd h (by simp)
  · rename_i hlen
    split at h
    · exact absurd h (by simp)
    · rename_i haff
      rw [not_or, not_not, not_not] at haff
      obtain ⟨hpre, hsuf⟩ := haff
      split at h
      · rename_i time hcast
        simp only [Option.some.injEq, Prod.mk.injEq] at h
        obtain ⟨rfl, rfl⟩ := h
        refine ⟨?_, hcast⟩
        unfold substr at hpre hsuf ⊢
        have hlen2 : (m.drop (m.length - s._suffix.length)).length = s._suffix.length := by
          rw [List.length_drop]
          omega
        have h1 : m.drop (m.length - s._suffix.length) = s._suffix := by
          rw [List.take_of_length_le (le_of_eq hlen2)] at hsuf
          exact hsuf
        have h2 : (m.drop s._prefix.length).drop (m.length - s._suffix.length - s._prefix.length)
            = s._suffix := by
          rw [List.drop_drop]
          have h3 : s._prefix.length + (m.length - s._suffix.length - s._prefix.length) =
              m.length - s._suffix.length := by omega
          rw [h3]
          exact h1
        simp only [List.drop_zero] at hpre
        calc m = m.take s._prefix.length ++ m.drop s._prefix.length :=
              (List.take_append_drop _ _).symm
          _ = s._prefix ++ ((m.drop s._prefix.length).take
                (m.length - s._suffix.length - s._prefix.length) ++
                (m.drop s._prefix.length).drop
                  (m.length - s._suffix.length - s._prefix.length)) := by
              rw [hpre, List.take_append_drop]
          _ = _ := by rw [h2, List.append_assoc]
      · exact absurd h (by simp)

theorem lexicalCastTime_isTime (str : List Char) (t : Int) (h : lexicalCastTime str = some t) :
    isTime t := by
  unfold lexicalCastTime at h
  unfold isTime
  split at h <;>
  · rw [Option.bind_eq_some] at h
    obtain ⟨v, _, hv⟩ := h
    split at hv
    · simp only [Option.some.injEq] at hv
      omega
    · exact absurd hv (by simp)

theorem retrieveInfosFromPattern_keeps (filePattern : List Char) (accept : EPattern)
    (s s1 : Sequence) (b : Bool)
    (h : retrieveInfosFromPattern filePattern accept s = some (b, s1)) :
    s1._step = s._step ∧ s1._firstTime = s._firstTime ∧ s1._lastTime = s._lastTime ∧
      s1._nbFiles = s._nbFiles := by
  unfold retrieveInfosFromPattern at h
  simp only at h
  repeat' split at h
  all_goals
    first
    | (simp only [Option.some.injEq, Prod.mk.injEq] at h
       obtain ⟨_, rfl⟩ := h
       simp [storeAffixes])
    | simp at h

theorem sorted_strictlyIncreasing (l : List Int) (hs : l.Sorted (· ≤ ·)) (hn : l.Nodup) :
    StrictlyIncreasing l := by
  induction l with
  | nil => trivial
  | cons a l ih =>
    cases l with
    | nil => trivial
    | cons b rest =>
      have hab : a ≤ b := List.rel_of_sorted_cons hs b (by simp)
      have hne : a ≠ b := fun e => (List.nodup_cons.1 hn).1 (by simp [e])
      exact ⟨lt_of_le_of_ne hab hne, ih (List.sorted_cons.1 hs).2 (List.nodup_cons.1 hn).2⟩

theorem sorted_head_le (l : List Int) (hs : l.Sorted (· ≤ ·)) :
    ∀ t ∈ l, l.headD 0 ≤ t := by
  cases l with
  | nil => simp
  | cons a l =>
    intro t ht
    rcases List.mem_cons.1 ht with rfl | ht
    · exact le_refl _
    · exact List.rel_of_sorted_cons hs t ht

theorem sorted_le_last (l : List Int) (hs : l.Sorted (· ≤ ·)) :
    ∀ t ∈ l, t ≤ l.getLastD 0 := by
  induction l with
  | nil => simp
  | cons a l ih =>
    intro t ht
    cases l with
    | nil =>
      simp at ht
      simp [ht]
    | cons b rest =>
      have hrec := ih (List.sorted_cons.1 hs).2
      have hlast : (a :: b :: rest).getLastD 0 = (b :: rest).getLastD 0 := by simp
      rw [hlast]
      rcases List.mem_cons.1 ht with rfl | ht
      · exact le_trans (List.rel_of_sorted_cons hs b (by simp)) (hrec b (by simp))
      · exact hrec t ht

theorem extractPadding_keeps (s s1 : Sequence) (timesStr : List (List Char))
    (h : extractPadding s timesStr = some s1) :
    s1._prefix = s._prefix ∧ s1._suffix = s._suffix ∧ s1._step = s._step := by
  unfold extractPadding at h
  split at h
  · simp at h
  · simp only at h
    split at h <;>
    · simp only [Option.some.injEq] at h
      subst h
      simp

theorem extractIsStrictPadding_keeps (s : Sequence) (timesStr : List (List Char)) (p : Nat) :
    Sequence._prefix (extractIsStrictPadding s timesStr p) = s._prefix ∧
    Sequence._suffix (extractIsStrictPadding s timesStr p) = s._suffix ∧
    Sequence._step (extractIsStrictPadding s timesStr p) = s._step := by
  unfold extractIsStrictPadding
  split
  · simp
  · split <;> simp

/-- The outcomes of `initFromDetection` when it returns true on an existing directory. -/
theorem initFromDetection_cases (s0 : Sequence) (filePattern : List Char) (accept : EPattern)
    (entries : List (List Char)) (S : Sequence)
    (h : initFromDetection s0 filePattern accept (some entries) = some (true, S)) :
    ∃ s1, retrieveInfosFromPattern filePattern accept (clear s0) = some (true, s1) ∧
      S._prefix = s1._prefix ∧ S._suffix = s1._suffix ∧
      (((entries.filterMap (isIn s1)).map Prod.fst = [] ∧ S = s1) ∨
       (∃ t, (entries.filterMap (isIn s1)).map Prod.fst = [t] ∧
          S = { s1 with _firstTime := t, _lastTime := t }) ∨
       (2 ≤ ((entries.filterMap (isIn s1)).map Prod.fst).length ∧
          S._step = listGcd (diffNeighbours
            (sortTimes ((entries.filterMap (isIn s1)).map Prod.fst)) []) ∧
          S._firstTime = (sortTimes ((entries.filterMap (isIn s1)).map Prod.fst)).headD 0 ∧
          S._lastTime = (sortTimes ((entries.filterMap (isIn s1)).map Prod.fst)).getLastD 0 ∧
          S._nbFiles = ((entries.filterMap (isIn s1)).map Prod.fst).length)) := by
  unfold initFromDetection at h
  split at h
  · simp at h
  · simp at h
  · rename_i s1 hret
    refine ⟨s1, hret, ?_⟩
    simp only at h
    split at h
    · rename_i hlt
      split at h
      · rename_i t ht
        simp only [Option.some.injEq, Prod.mk.injEq, true_and] at h
        subst h
        exact ⟨rfl, rfl, Or.inr (Or.inl ⟨t, ht, rfl⟩)⟩
      · rename_i hnot
        simp only [Option.some.injEq, Prod.mk.injEq, true_and] at h
        subst h
        refine ⟨rfl, rfl, Or.inl ⟨?_, rfl⟩⟩
        generalize (entries.filterMap (isIn s1)).map Prod.fst = allTimes at hlt hnot
        match allTimes, hlt, hnot with
        | [], _, _ => rfl
        | [t], _, hnot => exact absurd rfl (hnot t)
        | _ :: _ :: _, hlt, _ => exact absurd hlt (by simp)
    · rename_i hge
      have hlen : 2 ≤ ((entries.filterMap (isIn s1)).map Prod.fst).length := by omega
      have hslen : (sortTimes ((entries.filterMap (isIn s1)).map Prod.fst)).length =
          ((entries.filterMap (isIn s1)).map Prod.fst).length := by
        unfold sortTimes
        exact List.length_insertionSort _ _
      rw [extractStep_eq _ _ _ (by omega) (le_refl _)] at h
      simp only at h
      split at h
      · simp at h
      · rename_i s3 hpad
        simp only [Option.some.injEq, Prod.mk.injEq, true_and] at h
        subst h
        have hk := extractPadding_keeps _ _ _ hpad
        have hk2 := extractIsStrictPadding_keeps s3
          ((entries.filterMap (isIn s1)).map Prod.snd) s3._padding
        refine ⟨?_, ?_, Or.inr (Or.inr ⟨hlen, ?_, rfl, rfl, ?_⟩)⟩
        · simp [hk2.1, hk.1]
        · simp [hk2.2.1, hk.2.1]
        · simp [hk2.2.2, hk.2.2]
        · simpa using hslen

theorem exists_mul_of_dvd_sub (g : Nat) (a t : Int) (hle : a ≤ t) (hdvd : (g : Int) ∣ t - a) :
    ∃ k : Nat, t = a + k * g := by
  obtain ⟨c, hc⟩ := hdvd
  by_cases hg : g = 0
  · subst hg
    refine ⟨0, ?_⟩
    simp at hc
    omega
  · have hgpos : (0 : Int) < g := by exact_mod_cast Nat.pos_of_ne_zero hg
    have hc0 : 0 ≤ c := by
      by_contra hneg
      have : (g : Int) * c < 0 := mul_neg_of_pos_of_neg hgpos (by omega)
      omega
    refine ⟨c.toNat, ?_⟩
    rw [Int.toNat_of_nonneg hc0, mul_comm]
    omega

/-- The time of an observed member: for a sequence `S` built by `initFromDetection` from
a directory listing whose accepted filenames have pairwise distinct frame times, every
listed filename accepted by `isIn` is `S.prefix + timeStr + S.suffix`, where `lexical_cast`
reads `timeStr` as a time `t = S.firstTime + k * S.step` with
`S.firstTime ≤ t ≤ S.lastTime`. -/
theorem initFromDetection_observed_members (s0 : Sequence) (filePattern : List Char)
    (accept : EPattern) (entries : List (List Char)) (S : Sequence)
    (h : initFromDetection s0 filePattern accept (some entries) = some (true, S))
    (hdistinct : ((entries.filterMap (isIn S)).map Prod.fst).Nodup) :
    ∀ m ∈ entries, ∀ t timeStr, isIn S m = some (t, timeStr) →
      m = S._prefix ++ timeStr ++ S._suffix ∧ lexicalCastTime timeStr = some t ∧
      S._firstTime ≤ t ∧ t ≤ S._lastTime ∧ ∃ k : Nat, t = S._firstTime + k * S._step := by
  obtain ⟨s1, _, hp, hs, hcases⟩ := initFromDetection_cases s0 filePattern accept entries S h
  have hisIn : isIn S = isIn s1 := funext (isIn_congr S s1 hp hs)
  rw [hisIn] at hdistinct
  intro m hm t timeStr hin
  obtain ⟨hm_eq, hcast⟩ := isIn_some S m timeStr t hin
  have hmem : t ∈ (entries.filterMap (isIn s1)).map Prod.fst := by
    rw [List.mem_map]
    exact ⟨(t, timeStr), List.mem_filterMap.2 ⟨m, hm, by rw [← hisIn]; exact hin⟩, rfl⟩
  refine ⟨hm_eq, hcast, ?_⟩
  rcases hcases with ⟨hnil, _⟩ | ⟨t0, hone, hS⟩ | ⟨_, hstep, hfirst, hlast, _⟩
  · rw [hnil] at hmem
    exact absurd hmem (List.not_mem_nil _)
  · rw [hone] at hmem
    have ht : t = t0 := by simpa using hmem
    subst ht
    rw [hS]
    exact ⟨le_refl _, le_refl _, 0, by simp⟩
  · have hperm : (sortTimes ((entries.filterMap (isIn s1)).map Prod.fst)).Perm
        ((entries.filterMap (isIn s1)).map Prod.fst) := List.perm_insertionSort _ _
    have hsorted : (sortTimes ((entries.filterMap (isIn s1)).map Prod.fst)).Sorted (· ≤ ·) :=
      List.sorted_insertionSort _ _
    have hrange : ∀ x ∈ sortTimes ((entries.filterMap (isIn s1)).map Prod.fst), isTime x := by
      intro x hx
      have hx2 := hperm.mem_iff.1 hx
      rw [List.mem_map] at hx2
      obtain ⟨⟨x1, str⟩, hfound, rfl⟩ := hx2
      obtain ⟨m1, _, hm1⟩ := List.mem_filterMap.1 hfound
      exact lexicalCastTime_isTime str x1 (isIn_some s1 m1 str x1 hm1).2
    generalize sortTimes ((entries.filterMap (isIn s1)).map Prod.fst) = sorted
      at hperm hsorted hrange hstep hfirst hlast
    have hts : t ∈ sorted := hperm.mem_iff.2 hmem
    have hinc := sorted_strictlyIncreasing sorted hsorted (hperm.nodup_iff.2 hdistinct)
    rw [hfirst, hlast, hstep, listGcd_diffNeighbours sorted hinc hrange]
    have hle := sorted_head_le sorted hsorted t hts
    refine ⟨hle, sorted_le_last sorted hsorted t hts, ?_⟩
    apply exists_mul_of_dvd_sub _ _ _ hle
    match sorted, hts with
    | a :: l, hts => exact gcdOfList_deltas_dvd a l t hts

/-- C7 (as stated, refuted): in the directory of the two files `a.01.exr` and
`a.100.exr`, `initFromDetection` of the pattern `a.#.exr` builds a sequence of padding 0
whose member `a.01.exr` is not `prefix + renderNumber(t, padding, strictPadding) +
suffix` for any time `t = firstTime + k * step` up to `lastTime`. -/
theorem initFromDetection_member_not_rendered :
    ∃ S, initFromDetection emptySequence "a.#.exr".toList acceptAll
        (some ["a.01.exr".toList, "a.100.exr".toList]) = some (true, S) ∧
      isIn S "a.01.exr".toList = some (1, "01".toList) ∧
      ¬ ∃ k : Nat, S._firstTime + k * S._step ≤ S._lastTime ∧
          "a.01.exr".toList = S._prefix ++
            renderNumber (S._firstTime + k * S._step) S._padding S._strictPadding ++
            S._suffix := by
  refine ⟨mixedWidthSequence, by decide, by decide, ?_⟩
  rintro ⟨k, hk, heq⟩
  simp only [mixedWidthSequence] at hk heq
  have hk1 : k ≤ 1 := by omega
  interval_cases k
  · revert heq
    decide
  · revert heq
    decide

/-- C8 (the code departs from the claim): in the directory of the two files `a.1.exr`
and `a.01.exr`, which both have the frame time 1, `initFromDetection` of the pattern
`a.#.exr` returns true and stores the step 0 with `firstTime = lastTime = 1` and
`nbFiles = 2`: the quotient of `nbMissingFiles` is not defined. -/
theorem initFromDetection_equal_times_missing_undefined :
    ∃ S, initFromDetection emptySequence "a.#.exr".toList acceptAll
        (some ["a.1.exr".toList, "a.01.exr".toList]) = some (true, S) ∧
      S._step = 0 ∧ S._firstTime = 1 ∧ S._lastTime = 1 ∧ S._nbFiles = 2 ∧
      nbMissingFiles S = none := by
  refine ⟨{ emptySequence with _prefix := "a.".toList, _suffix := ".exr".toList, _step := 0,
                               _firstTime := 1, _lastTime := 1, _nbFiles := 2 }, ?_⟩
  decide

/-! ### One sequence per value of the other varying slot -/

/-- C11 (the code departs from the claim): `retrieveInfosFromPattern` tries the Frame form
before the Frame-with-sign form. For `name.-0001.ext`, matched by neither the Standard
nor the Printf form and with both frame forms accepted, it returns the result of the
Frame match, prefix `name.-` and padding 4, while the Frame-with-sign match has the
prefix `name.` and the field `-0001`, and `checkPattern` with negative numbers enabled
answers `ePatternFrameNeg`. -/
theorem retrieveInfosFromPattern_frame_before_frameNeg :
    regex_match (c_str "name.-0001.ext".toList) regexPatternStandard = none ∧
    regex_match (c_str "name.-0001.ext".toList) regexPatternCStyle = none ∧
    regex_match (c_str "name.-0001.ext".toList) regexPatternFrameNeg =
      some [[], "name.".toList, "-0001".toList, ".ext".toList] ∧
    retrieveInfosFromPattern "name.-0001.ext".toList acceptAll emptySequence =
      some (true, { emptySequence with _prefix := "name.-".toList, _suffix := ".ext".toList,
                                       _padding := 4, _strictPadding := false }) ∧
    checkPattern "name.-0001.ext".toList { defaultDetection with negative := true } =
      PatternKind.ePatternFrameNeg := by
  decide

/-- C13 (the code departs from the claim): for `name.-0001.ext`, parsed by the
Frame-with-sign form (the only form accepted), the numeric field is `-0001` and the
returned padding is 5, the size of the field with its sign, not the 4 digits; the
sibling `getPaddingFromStringNumber` gives 4 for the same field. -/
theorem retrieveInfosFromPattern_frameNeg_counts_sign :
    regex_match (c_str "name.-0001.ext".toList) regexPatternFrameNeg =
      some [[], "name.".toList, "-0001".toList, ".ext".toList] ∧
    retrieveInfosFromPattern "name.-0001.ext".toList acceptFrameNeg emptySequence =
      some (true, { emptySequence with _prefix := "name.".toList, _suffix := ".ext".toList,
                                       _padding := 5, _strictPadding := false }) ∧
    getPaddingFromStringNumber "-0001".toList = 4 := by
  decide

/-- C20 (the code departs from the claim): for `seq1shot04myimage.0123.jpg` the Frame form
captures the first number `1` as the frame, not `0123`: the prefix is `seq`, the padding
1 and the suffix `shot04myimage.0123.jpg`. -/
theorem retrieveInfosFromPattern_frame_first_number :
    regex_match (c_str "seq1shot04myimage.0123.jpg".toList) regexPatternFrame =
      some [[], "seq".toList, "1".toList, "shot04myimage.0123.jpg".toList] ∧
    retrieveInfosFromPattern "seq1shot04myimage.0123.jpg".toList acceptFrame emptySequence =
      some (true, { emptySequence with _prefix := "seq".toList,
                                       _suffix := "shot04myimage.0123.jpg".toList,
                                       _padding := 1, _strictPadding := false }) := by
  decide

/-- C16 (as stated, refuted): in a directory whose only accepted file is `a.5.exr`,
`initFromDetection` of the pattern `a.#.exr` returns true with
`firstTime = lastTime = 5` and leaves `nbFiles` at 0, while one listed filename is
accepted by `isIn`. -/
theorem initFromDetection_single_file_nbFiles_zero :
    ∃ S, initFromDetection emptySequence "a.#.exr".toList acceptAll
        (some ["a.5.exr".toList, "b.txt".toList]) = some (true, S) ∧
      (["a.5.exr".toList, "b.txt".toList].filterMap (isIn S)).length = 1 ∧
      S._firstTime = 5 ∧ S._lastTime = 5 ∧ S._nbFiles = 0 := by
  refine ⟨{ emptySequence with _prefix := "a.".toList, _suffix := ".exr".toList, _padding := 1,
                               _strictPadding := true, _firstTime := 5, _lastTime := 5 }, ?_⟩
  decide

/-! ### Padding from the time strings -/

theorem extractPadding_eq (s : Sequence) (front : List Char) (rest : List (List Char)) :
    extractPadding s (front :: rest) =
      some { s with _padding :=
        if ∀ str ∈ front :: rest,
            getPaddingFromStringNumber str = getPaddingFromStringNumber front
        then getPaddingFromStringNumber front else 0 } := by
  unfold extractPadding
  simp only
  by_cases h : ∀ str ∈ front :: rest,
      getPaddingFromStringNumber str = getPaddingFromStringNumber front
  · have hany : ¬ ((front :: rest).any (fun str =>
        getPaddingFromStringNumber front != getPaddingFromStringNumber str) = true) := by
      rw [List.any_eq_true]
      rintro ⟨str, hstr, hne⟩
      simp only [bne_iff_ne, ne_eq] at hne
      exact hne (h str hstr).symm
    rw [if_neg hany, if_pos h]
  · have hany : (front :: rest).any (fun str =>
        getPaddingFromStringNumber front != getPaddingFromStringNumber str) = true := by
      rw [List.any_eq_true]
      push_neg at h
      obtain ⟨str, hstr, hne⟩ := h
      exact ⟨str, hstr, by simpa [bne_iff_ne] using fun e => hne e.symm⟩
    rw [if_pos hany, if_neg h]

theorem getPaddingFromStringNumber_unsigned (str : List Char)
    (h1 : charAt0 str ≠ '-') (h2 : charAt0 str ≠ '+') :
    getPaddingFromStringNumber str = str.length := by
  unfold getPaddingFromStringNumber
  split
  · simp [h1, h2]
  · rfl

/-- C15 (as amended): for a non-empty list of frame-number strings, the overload of
`extractPadding` on the time strings returns and sets the padding to the common width of
the strings (`getPaddingFromStringNumber`: the length, a leading sign of a longer string
not counted) when all strings have the same width, and to 0 when a width differs; a
leading zero plays no part, so strings without sign that all have `n` characters give
the padding `n`. -/
theorem extractPadding_common_width (s : Sequence) (timesStr : List (List Char))
    (hne : timesStr ≠ []) :
    ∃ pad, extractPadding s timesStr = some { s with _padding := pad } ∧
      ((∀ str ∈ timesStr, getPaddingFromStringNumber str =
          getPaddingFromStringNumber (timesStr.headD [])) →
        pad = getPaddingFromStringNumber (timesStr.headD [])) ∧
      ((∃ str ∈ timesStr, getPaddingFromStringNumber str ≠
          getPaddingFromStringNumber (timesStr.headD [])) → pad = 0) ∧
      (∀ n, (∀ str ∈ timesStr, str.length = n ∧ charAt0 str ≠ '-' ∧ charAt0 str ≠ '+') →
        pad = n) := by
  match timesStr, hne with
  | front :: rest, _ =>
    refine ⟨_, extractPadding_eq s front rest, ?_, ?_, ?_⟩
    · intro h
      have h' : ∀ str ∈ front :: rest,
          getPaddingFromStringNumber str = getPaddingFromStringNumber front := h
      rw [if_pos h']
      rfl
    · rintro ⟨str, hstr, hne2⟩
      have hne3 : getPaddingFromStringNumber str ≠ getPaddingFromStringNumber front := hne2
      rw [if_neg (fun h => hne3 (h str hstr))]
    · intro n hn
      have hw : ∀ str ∈ front :: rest, getPaddingFromStringNumber str = n := by
        intro str hstr
        obtain ⟨hl, h1, h2⟩ := hn str hstr
        rw [getPaddingFromStringNumber_unsigned str h1 h2, hl]
      rw [if_pos (fun str hstr => by rw [hw str hstr, hw front (by simp)])]
      exact hw front (by simp)

theorem extractPadding_common_width_witness :
    ∃ pad, extractPadding emptySequence ["10".toList, "20".toList, "30".toList] =
        some { emptySequence with _padding := pad } ∧ pad = 2 := by
  obtain ⟨pad, h1, _, _, h2⟩ := extractPadding_common_width emptySequence
    ["10".toList, "20".toList, "30".toList] (by decide)
  exact ⟨pad, h1, h2 2 (by decide)⟩

/-- C15 (as stated, refuted): none of the strings `10`, `20`, `30` begins with `'0'`, and
the padding that `extractPadding` derives from them, as `initFromDetection` does for a
directory with `a.10.exr`, `a.20.exr`, `a.30.exr`, is 2, not 0. -/
theorem extractPadding_without_leading_zero :
    (∀ str ∈ ["10".toList, "20".toList, "30".toList], charAt0 str ≠ '0') ∧
    extractPadding emptySequence ["10".toList, "20".toList, "30".toList] =
      some { emptySequence with _padding := 2 } ∧
    (initFromDetection emptySequence "a.#.exr".toList acceptAll
      (some ["a.10.exr".toList, "a.20.exr".toList, "a.30.exr".toList])).map
        (fun r => (r.2._padding, r.2._strictPadding)) = some (2, false) := by
  decide

/-! ### Strict padding implies a padding -/

theorem extractIsStrictPadding_pos (s : Sequence) (timesStr : List (List Char)) (p : Nat)
    (h : Sequence._strictPadding (extractIsStrictPadding s timesStr p) = true) : 0 < p := by
  unfold extractIsStrictPadding at h
  by_cases hp : p = 0
  · simp [hp] at h
  · omega

theorem extractIsStrictPadding_padding (s : Sequence) (timesStr : List (List Char)) (p : Nat) :
    Sequence._padding (extractIsStrictPadding s timesStr p) = s._padding := by
  unfold extractIsStrictPadding
  split
  · rfl
  · split <;> rfl

theorem extractIsStrictPaddingFileNumbers_pos (s : Sequence) (times : List FileNumbers)
    (i p : Nat)
    (h : Sequence._strictPadding (extractIsStrictPaddingFileNumbers s times i p) = true) :
    0 < p := by
  unfold extractIsStrictPaddingFileNumbers at h
  by_cases hp : p = 0
  · simp [hp] at h
  · omega

theorem extractIsStrictPaddingFileNumbers_padding (s : Sequence) (times : List FileNumbers)
    (i p : Nat) :
    Sequence._padding (extractIsStrictPaddingFileNumbers s times i p) = s._padding := by
  unfold extractIsStrictPaddingFileNumbers
  split
  · rfl
  · split <;> rfl

theorem retrieveInfosFromPattern_strict_pos (filePattern : List Char) (accept : EPattern)
    (s s1 : Sequence) (h : retrieveInfosFromPattern filePattern accept s = some (true, s1))
    (hs : s1._strictPadding = true) : 0 < s1._padding := by
  unfold retrieveInfosFromPattern at h
  simp only at h
  split at h
  · rename_i m _
    simp only [Option.some.injEq, Prod.mk.injEq, true_and] at h
    subst h
    simp only [storeAffixes] at hs ⊢
    cases hm : m.getD 2 [] with
    | nil =>
      rw [hm] at hs
      exact absurd hs (by decide)
    | cons c cs => simp
  · repeat' split at h
    all_goals
      first
      | (simp only [Option.some.injEq, Prod.mk.injEq, true_and] at h
         subst h
         simp [storeAffixes] at hs)
      | simp at h

/-- C19: strict padding implies a non-zero padding. In the state that `extractPadding`
followed by `extractIsStrictPadding` produces (both overloads), and in the state that
`retrieveInfosFromPattern` stores for a pattern that it accepts, `_strictPadding = true`
implies `_padding > 0`. -/
theorem strictPadding_implies_padding :
    (∀ (s s1 : Sequence) (timesStr : List (List Char)),
      extractPadding s timesStr = some s1 →
      Sequence._strictPadding (extractIsStrictPadding s1 timesStr s1._padding) = true →
      0 < Sequence._padding (extractIsStrictPadding s1 timesStr s1._padding)) ∧
    (∀ (s s1 : Sequence) (times : List FileNumbers) (i : Nat),
      extractPaddingFileNumbers s times i = some s1 →
      Sequence._strictPadding (extractIsStrictPaddingFileNumbers s1 times i s1._padding) = true →
      0 < Sequence._padding (extractIsStrictPaddingFileNumbers s1 times i s1._padding)) ∧
    (∀ (filePattern : List Char) (accept : EPattern) (s s1 : Sequence),
      retrieveInfosFromPattern filePattern accept s = some (true, s1) →
      s1._strictPadding = true → 0 < s1._padding) := by
  refine ⟨?_, ?_, ?_⟩
  · intro s s1 timesStr _ hs
    rw [extractIsStrictPadding_padding]
    exact extractIsStrictPadding_pos s1 timesStr s1._padding hs
  · intro s s1 times i _ hs
    rw [extractIsStrictPaddingFileNumbers_padding]
    exact extractIsStrictPaddingFileNumbers_pos s1 times i s1._padding hs
  · intro filePattern accept s s1 h hs
    exact retrieveInfosFromPattern_strict_pos filePattern accept s s1 h hs

theorem strictPadding_implies_padding_witness :
    retrieveInfosFromPattern "img.####.exr".toList acceptStandard emptySequence =
      some (true, { emptySequence with _prefix := "img.".toList, _suffix := ".exr".toList,
                                       _padding := 4, _strictPadding := true }) ∧
    0 < Sequence._padding
      { emptySequence with _prefix := "img.".toList, _suffix := ".exr".toList,
                           _padding := 4, _strictPadding := true } :=
  ⟨by decide, strictPadding_implies_padding.2.2 "img.####.exr".toList acceptStandard
    emptySequence _ (by decide) (by decide)⟩

/-! ### The items of `browse` -/

/-- C18: when `detectDirectoryInResearch` succeeds, the output of `browse` is the items of
the entries followed, for every sequence that `buildSequences` returns, by what is
emitted for it: nothing when its first file is a directory; otherwise exactly one item,
a plain file item with the first filename of the sequence when the option
`SequenceNeedsAtLeastTwoFiles` is set and the sequence has exactly one file, and a
sequence item otherwise. -/
theorem browse_items_of_sequences (env : BrowseEnv) (detectOptions : EDetection)
    (hdetect : env.detectDirectoryInResearch = true) :
    ∃ emitted : Sequence → List Item,
      browse env detectOptions =
        (browseEntries env detectOptions env.entries [] []).1 ++
          ((((browseEntries env detectOptions env.entries [] []).2.map
            (fun p => buildSequences p.1 p.2)).flatten).map emitted).flatten ∧
      ∀ s : Sequence,
        (env.firstFileIsDirectory s = true → emitted s = []) ∧
        (env.firstFileIsDirectory s = false →
          detectOptions.sequenceNeedAtLeastTwoFiles = true → s._nbFiles = 1 →
          emitted s = [Item.ofFilename EType.eTypeFile (env.getFirstFilename s) env.directory]) ∧
        (env.firstFileIsDirectory s = false →
          ¬ (detectOptions.sequenceNeedAtLeastTwoFiles = true ∧ s._nbFiles = 1) →
          emitted s = [Item.ofSequence s env.directory]) := by
  refine ⟨emitSequence env detectOptions, ?_, ?_⟩
  · unfold browse browseSequences
    rw [hdetect]
    rfl
  · intro s
    unfold emitSequence
    refine ⟨?_, ?_, ?_⟩
    · intro h
      rw [if_pos h]
    · intro h h2 h1
      rw [if_neg (by simp [h])]
      simp [h2, h1]
    · intro h hn
      rw [if_neg (by simp [h])]
      rw [if_neg]
      simpa using hn

theorem browse_items_of_sequences_witness :
    browse sampleBrowseEnv needAtLeastTwoFiles =
      [Item.ofFilename EType.eTypeFile "notes".toList "dir".toList,
       Item.ofSequence { _prefix := "a.".toList, _suffix := ".exr".toList,
                         _strictPadding := false, _padding := 0, _step := 1, _firstTime := 1,
                         _lastTime := 2, _nbFiles := 2 } "dir".toList,
       Item.ofFilename EType.eTypeFile "shot.7.exr".toList "dir".toList] ∧
    ∃ emitted : Sequence → List Item,
      browse sampleBrowseEnv needAtLeastTwoFiles =
        (browseEntries sampleBrowseEnv needAtLeastTwoFiles sampleBrowseEnv.entries [] []).1 ++
          ((((browseEntries sampleBrowseEnv needAtLeastTwoFiles sampleBrowseEnv.entries
            [] []).2.map (fun p => buildSequences p.1 p.2)).flatten).map emitted).flatten ∧
      ∀ s : Sequence,
        (sampleBrowseEnv.firstFileIsDirectory s = true → emitted s = []) ∧
        (sampleBrowseEnv.firstFileIsDirectory s = false →
          needAtLeastTwoFiles.sequenceNeedAtLeastTwoFiles = true → s._nbFiles = 1 →
          emitted s = [Item.ofFilename EType.eTypeFile (sampleBrowseEnv.getFirstFilename s)
            sampleBrowseEnv.directory]) ∧
        (sampleBrowseEnv.firstFileIsDirectory s = false →
          ¬ (needAtLeastTwoFiles.sequenceNeedAtLeastTwoFiles = true ∧ s._nbFiles = 1) →
          emitted s = [Item.ofSequence s sampleBrowseEnv.directory]) :=
  ⟨by decide, browse_items_of_sequences sampleBrowseEnv needAtLeastTwoFiles rfl⟩

/-! ### `getFiles` -/

theorem toTime_of_isTime (z : Int) (h1 : -(2 ^ 63) ≤ z) (h2 : z < 2 ^ 63) : toTime z = z := by
  unfold toTime
  rw [Int.emod_eq_of_lt (by omega) (by omega)]
  omega

theorem getFilesLoop_eq (path : Int → List Char) (s : Sequence) (m : Nat) :
    ∀ (fuel : Nat) (t : Int) (acc : List (List Char)),
      1 ≤ s._step → -(2 ^ 63) ≤ t → s._lastTime + (s._step : Int) < 2 ^ 63 →
      s._lastTime < t + (m : Int) * (s._step : Int) →
      (∀ k : Nat, k < m → t + (k : Int) * (s._step : Int) ≤ s._lastTime) →
      m < fuel →
      getFilesLoop path s fuel t acc =
        some (acc ++ (List.range m).map (fun (k : Nat) => path (t + (k : Int) * (s._step : Int)))) := by
  induction m with
  | zero =>
    intro fuel t acc _ _ _ hgt _ hfuel
    obtain ⟨f, rfl⟩ : ∃ f, fuel = f + 1 := ⟨fuel - 1, by omega⟩
    rw [getFilesLoop, if_neg (by simpa using hgt)]
    simp
  | succ m ih =>
    intro fuel t acc hstep hlow hov hgt hle hfuel
    obtain ⟨f, rfl⟩ : ∃ f, fuel = f + 1 := ⟨fuel - 1, by omega⟩
    have ht : t ≤ s._lastTime := by simpa using hle 0 (by omega)
    have hstep' : (1 : Int) ≤ (s._step : Int) := by exact_mod_cast hstep
    rw [getFilesLoop, if_pos ht, toTime_of_isTime _ (by omega) (by omega)]
    rw [ih f (t + (s._step : Int)) _ hstep (by omega) hov
      (by push_cast at hgt; linarith)
      (fun k hk => by
        have := hle (k + 1) (by omega)
        push_cast at this
        linarith)
      (by omega)]
    rw [List.range_succ_eq_map, List.map_cons, List.map_map, List.append_assoc]
    congr 2
    simp only [List.cons_append, List.nil_append, Nat.cast_zero, zero_mul, add_zero,
      List.cons.injEq, true_and, List.map_inj_left, Function.comp, Nat.cast_succ]
    intro k _
    congr 1
    ring

theorem frameCount_bounds (first last : Int) (step : Nat) (hle : first ≤ last)
    (hstep : 1 ≤ step) :
    last < first + (((last - first) / (step : Int) + 1).toNat : Int) * (step : Int) ∧
    ∀ k : Nat, k < ((last - first) / (step : Int) + 1).toNat →
      first + (k : Int) * (step : Int) ≤ last := by
  have hpos : (0 : Int) < (step : Int) := by exact_mod_cast hstep
  have hq0 : 0 ≤ (last - first) / (step : Int) := Int.ediv_nonneg (by omega) (le_of_lt hpos)
  have h1 : (last - first) / (step : Int) * (step : Int) ≤ last - first :=
    Int.ediv_mul_le _ (ne_of_gt hpos)
  have h2 : last - first < ((last - first) / (step : Int) + 1) * (step : Int) :=
    Int.lt_ediv_add_one_mul_self _ hpos
  have hn : ((((last - first) / (step : Int) + 1).toNat : Nat) : Int) =
      (last - first) / (step : Int) + 1 := Int.toNat_of_nonneg (by omega)
  constructor
  · rw [hn]
    linarith
  · intro k hk
    have hk' : (k : Int) ≤ (last - first) / (step : Int) := by
      have : (k : Int) < (((last - first) / (step : Int) + 1).toNat : Int) := by exact_mod_cast hk
      rw [hn] at this
      omega
    have : (k : Int) * (step : Int) ≤ (last - first) / (step : Int) * (step : Int) :=
      mul_le_mul_of_nonneg_right hk' (le_of_lt hpos)
    linarith

theorem frameTimes_increasing (s : Sequence) (hstep : 1 ≤ s._step) (n : Nat) :
    ∀ i j : Nat, i < j → j < n →
      (frameTimes s n).getD i 0 < (frameTimes s n).getD j 0 := by
  intro i j hij hjn
  have hpos : (0 : Int) < (s._step : Int) := by exact_mod_cast hstep
  have hin : i < n := by omega
  unfold frameTimes
  rw [List.getD_eq_getElem _ _ (by simpa using hin),
    List.getD_eq_getElem _ _ (by simpa using hjn)]
  simp only [List.getElem_map, List.getElem_range]
  have : (i : Int) < (j : Int) := by exact_mod_cast hij
  have := mul_lt_mul_of_pos_right this hpos
  linarith

/-- C17: for a sequence with `firstTime ≤ lastTime` and `step ≥ 1` (the two times being
`Time` values and `lastTime + step` not overflowing), `getFiles` returns, with any bound
above the number of frames, the paths of exactly the times `firstTime`,
`firstTime + step`, ..., up to the largest such value `≤ lastTime`, in strictly ascending
time order: `(lastTime - firstTime) / step + 1` entries. -/
theorem getFiles_enumerates (fuel : Nat) (path : Int → List Char) (s : Sequence)
    (hle : s._firstTime ≤ s._lastTime) (hstep : 1 ≤ s._step)
    (hfirst : isTime s._firstTime)
    (hov : s._lastTime + (s._step : Int) < 2 ^ 63)
    (hfuel : ((s._lastTime - s._firstTime) / (s._step : Int) + 1).toNat < fuel) :
    getFiles fuel path s =
      some ((frameTimes s
        ((s._lastTime - s._firstTime) / (s._step : Int) + 1).toNat).map path) ∧
    (((s._lastTime - s._firstTime) / (s._step : Int) + 1).toNat : Int) =
      (s._lastTime - s._firstTime) / (s._step : Int) + 1 ∧
    (∀ k : Nat, k < ((s._lastTime - s._firstTime) / (s._step : Int) + 1).toNat →
      s._firstTime + (k : Int) * (s._step : Int) ≤ s._lastTime) ∧
    s._lastTime < s._firstTime +
      (((s._lastTime - s._firstTime) / (s._step : Int) + 1).toNat : Int) * (s._step : Int) ∧
    (∀ i j : Nat, i < j →
      j < ((s._lastTime - s._firstTime) / (s._step : Int) + 1).toNat →
      (frameTimes s ((s._lastTime - s._firstTime) / (s._step : Int) + 1).toNat).getD i 0 <
        (frameTimes s ((s._lastTime - s._firstTime) / (s._step : Int) + 1).toNat).getD j 0) := by
  have hb := frameCount_bounds s._firstTime s._lastTime s._step hle hstep
  have hpos : (0 : Int) < (s._step : Int) := by exact_mod_cast hstep
  have hq0 : 0 ≤ (s._lastTime - s._firstTime) / (s._step : Int) :=
    Int.ediv_nonneg (by omega) (le_of_lt hpos)
  refine ⟨?_, Int.toNat_of_nonneg (by omega), hb.2, hb.1, frameTimes_increasing s hstep _⟩
  unfold getFiles
  rw [getFilesLoop_eq path s _ fuel s._firstTime [] hstep hfirst.1 hov hb.1 hb.2 hfuel]
  simp [frameTimes, List.map_map, Function.comp]

theorem getFiles_enumerates_witness :
    getFiles 5 (fun t => renderNumber t 0 false)
        { emptySequence with _firstTime := 1, _lastTime := 10, _step := 3 } =
      some ["1".toList, "4".toList, "7".toList, "10".toList] :=
  (getFiles_enumerates 5 (fun t => renderNumber t 0 false)
    { emptySequence with _firstTime := 1, _lastTime := 10, _step := 3 }
    (by decide) (by decide) (by decide) (by decide) (by decide)).1

/-! ### Round trip through the rendered pattern -/

theorem retrieveInfosFromPattern_of_standard_match (pattern p s field : List Char)
    (accept : EPattern) (sq : Sequence) (hacc : accept.standard = true)
    (hm : regex_match (c_str pattern) regexPatternStandard = some [[], p, field, s]) :
    retrieveInfosFromPattern pattern accept sq =
      some (true, { sq with _prefix := p, _suffix := s, _padding := field.length,
                            _strictPadding := charAt0 field == '#' }) := by
  unfold retrieveInfosFromPattern
  rw [hacc, if_pos rfl, hm]
  simp [storeAffixes]

/-- C14 (as amended): for a sequence with a padding of at least 1, a prefix without `#`
and `@` that does not end with `[`, and a suffix that starts neither with the character
of the numeric field nor with `]` (prefix and suffix being C strings),
`retrieveInfosFromPattern` with the Standard form accepted, applied to the rendered
pattern (prefix, padding-many `#` when strict and `@` otherwise, suffix), returns true
with the same prefix, suffix, padding and strict padding. -/
theorem renderPattern_round_trip (s sq : Sequence) (accept : EPattern)
    (hacc : accept.standard = true) (hpad : 1 ≤ s._padding)
    (hp : ∀ x ∈ s._prefix, x ≠ '#' ∧ x ≠ '@') (hlast : s._prefix.getLast? ≠ some '[')
    (hs1 : s._suffix.head? ≠ some (if s._strictPadding then '#' else '@'))
    (hs2 : s._suffix.head? ≠ some ']')
    (hnul : ∀ x ∈ s._prefix ++ s._suffix, x ≠ '\x00') :
    retrieveInfosFromPattern (renderPattern s) accept sq =
      some (true, { sq with _prefix := s._prefix, _suffix := s._suffix,
                            _padding := s._padding, _strictPadding := s._strictPadding }) := by
  have hc : (if s._strictPadding then '#' else '@') = '#' ∨
      (if s._strictPadding then '#' else '@') = '@' := by
    cases s._strictPadding <;> simp
  have hcs : c_str (renderPattern s) = renderPattern s := by
    apply c_str_of_no_nul
    intro x hx
    unfold renderPattern at hx
    simp only [List.mem_append] at hx hnul
    rcases hx with (hx | hx) | hx
    · exact hnul x (Or.inl hx)
    · rw [List.eq_of_mem_replicate hx]
      cases s._strictPadding <;> decide
    · exact hnul x (Or.inr hx)
  rw [retrieveInfosFromPattern_of_standard_match (renderPattern s) s._prefix s._suffix
    (List.replicate s._padding (if s._strictPadding then '#' else '@')) accept sq hacc
    (by rw [hcs]; exact regex_match_standard _ _ _ _ hpad hc hp hlast hs1 hs2)]
  obtain ⟨m, hm⟩ : ∃ m, s._padding = m + 1 := ⟨s._padding - 1, by omega⟩
  rw [hm]
  cases s._strictPadding <;> simp [charAt0, List.replicate_succ]

theorem renderPattern_round_trip_witness :
    retrieveInfosFromPattern
        (renderPattern { emptySequence with _prefix := "img.".toList, _suffix := ".exr".toList,
                                            _padding := 4, _strictPadding := false })
        acceptStandard emptySequence =
      some (true, { emptySequence with _prefix := "img.".toList, _suffix := ".exr".toList,
                                       _padding := 4, _strictPadding := false }) :=
  renderPattern_round_trip
    { emptySequence with _prefix := "img.".toList, _suffix := ".exr".toList,
                         _padding := 4, _strictPadding := false }
    emptySequence acceptStandard rfl (by decide) (by decide) (by decide) (by decide)
    (by decide) (by decide)

/-- C14 (as stated, refuted): the pattern rendered from the sequence with prefix `a.`,
suffix `.exr` and padding 0 is `a..exr`, which no form accepts; the one rendered from
prefix `s#1.`, suffix `.exr`, padding 2, strict is parsed with prefix `s` and padding 1;
the one rendered from prefix `a[`, suffix `]b`, padding 1, strict with prefix `a` and
suffix `b`. -/
theorem renderPattern_round_trip_fails :
    retrieveInfosFromPattern
        (renderPattern { emptySequence with _prefix := "a.".toList, _suffix := ".exr".toList })
        acceptAll emptySequence = some (false, emptySequence) ∧
    retrieveInfosFromPattern
        (renderPattern { emptySequence with _prefix := "s#1.".toList, _suffix := ".exr".toList,
                                            _padding := 2, _strictPadding := true })
        acceptAll emptySequence =
      some (true, { emptySequence with _prefix := "s".toList, _suffix := "1.##.exr".toList,
                                       _padding := 1, _strictPadding := true }) ∧
    retrieveInfosFromPattern
        (renderPattern { emptySequence with _prefix := "a[".toList, _suffix := "]b".toList,
                                            _padding := 1, _strictPadding := true })
        acceptAll emptySequence =
      some (true, { emptySequence with _prefix := "a".toList, _suffix := "b".toList,
                                       _padding := 1, _strictPadding := true }) := by
  decide

/-! ### The Printf form -/

theorem starLazy_none (pr : Char → Bool) (k : List Char → Option Captures) (input : List Char)
    (hk : ∀ p1 p2, input = p1 ++ p2 → k p2 = none) : starLazy pr input k = none := by
  induction input with
  | nil =>
    rw [starLazy]
    exact hk [] [] rfl
  | cons x xs ih =>
    rw [starLazy, hk [] (x :: xs) rfl]
    simp only
    split
    · exact ih (fun p1 p2 h12 => hk (x :: p1) p2 (by rw [h12]; rfl))
    · rfl

theorem hashes_fail_nil (R : Regex) (caps : Captures)
    (k : List Char → Captures → Option Captures) :
    (Regex.seq hashesOrAts R).run [] caps k = none := by
  simp [hashesOrAts, Regex.run]

/-- The Standard pattern matches no string without `#` and `@`. -/
theorem regex_match_standard_none (input : List Char)
    (h : ∀ x ∈ input, x ≠ '#' ∧ x ≠ '@') : regex_match input regexPatternStandard = none := by
  have hfail : ∀ (R : Regex) (l : List Char) (caps : Captures)
      (k : List Char → Captures → Option Captures), (∀ x ∈ l, x ≠ '#' ∧ x ≠ '@') →
      (Regex.seq hashesOrAts R).run l caps k = none := by
    intro R l caps k hl
    cases l with
    | nil => exact hashes_fail_nil R caps k
    | cons x xs => exact hashes_fail R x xs caps k (hl x (by simp)).1 (hl x (by simp)).2
  unfold regex_match regexPatternStandard
  rw [Regex.run, Regex.run, Regex.run]
  apply starLazy_none
  intro p1 p2 h12
  have hp2 : ∀ x ∈ p2, x ≠ '#' ∧ x ≠ '@' :=
    fun x hx => h x (by rw [h12]; exact List.mem_append_right _ hx)
  rw [Regex.run, Regex.run]
  have h1 : (Regex.chr (lit '[')).run p2 ([[], [], [], []].set 1
      (input.take (input.length - p2.length)))
      (fun rest caps1 => (Regex.seq hashesOrAts (.seq (.opt (.chr (lit ']')))
        (.group 3 (.lazyStar anyChar)))).run rest caps1
          (fun rest caps => if rest = [] then some caps else none)) = none := by
    cases p2 with
    | nil => rfl
    | cons x xs =>
      rw [Regex.run]
      split
      · exact hfail _ xs _ _ (fun y hy => hp2 y (List.mem_cons_of_mem _ hy))
      · rfl
  rw [h1]
  exact hfail _ p2 _ _ hp2

theorem percent_fail (R : Regex) (l : List Char) (caps : Captures)
    (k : List Char → Captures → Option Captures) (h : l.head? ≠ some '%') :
    (Regex.seq (.chr (lit '%')) R).run l caps k = none := by
  cases l with
  | nil => rfl
  | cons x xs =>
    have : x ≠ '%' := fun e => h (by simp [e])
    simp [Regex.run, lit, this]

theorem before_percent_fail (R : Regex) (p2 tail : List Char) (caps : Captures)
    (k : List Char → Captures → Option Captures)
    (hp : ∀ x ∈ p2, x ≠ '%') (hne : p2 ≠ []) (hlast : p2.getLast? ≠ some '[') :
    (Regex.seq (.opt (.chr (lit '['))) (.seq (.chr (lit '%')) R)).run (p2 ++ tail) caps k
      = none := by
  match p2, hne with
  | x :: xs, _ =>
    have hx := hp x (by simp)
    have h0 : (Regex.seq (.chr (lit '%')) R).run (x :: (xs ++ tail)) caps k = none :=
      percent_fail R _ caps k (by simp [hx])
    have h1 : (Regex.chr (lit '[')).run (x :: (xs ++ tail)) caps
        (fun rest caps1 => (Regex.seq (.chr (lit '%')) R).run rest caps1 k) = none := by
      by_cases hb : x = '['
      · subst hb
        match xs, hlast with
        | [], hlast => exact absurd rfl hlast
        | y :: ys, _ =>
          have hy := hp y (by simp)
          simpa [Regex.run, lit] using percent_fail R (y :: (ys ++ tail)) caps k (by simp [hy])
      · simp [Regex.run, lit, hb]
    rw [List.cons_append]
    rw [Regex.run, Regex.run, h1]
    exact h0

theorem regex_match_cStyle (p d s : List Char)
    (hd : ∀ x ∈ d, digit x = true) (hp : ∀ x ∈ p, x ≠ '%')
    (hlast : p.getLast? ≠ some '[') (hs2 : s.head? ≠ some ']') :
    regex_match (p ++ '%' :: (d ++ 'd' :: s)) regexPatternCStyle = some [[], p, d, s] := by
  unfold regex_match regexPatternCStyle
  rw [Regex.run, Regex.run, Regex.run, starLazy_skip]
  · apply starLazy_of_some
    have htake : (p ++ '%' :: (d ++ 'd' :: s)).take
        ((p ++ '%' :: (d ++ 'd' :: s)).length - ('%' :: (d ++ 'd' :: s)).length) = p :=
      take_length_sub _ _
    rw [htake]
    have hdd : digit 'd' = false := by decide
    have hgreedy : ∀ (K : List Char → Option Captures) (r : Captures),
        K ('d' :: s) = some r → starGreedy digit (d ++ 'd' :: s) K = some r := by
      intro K r hK
      apply starGreedy_all _ _ _ _ _ hd
      rw [starGreedy_stop]
      · exact hK
      · intro c hc
        simp only [List.head?_cons, Option.some.injEq] at hc
        rw [← hc]
        exact hdd
    have htake2 : (d ++ 'd' :: s).take ((d ++ 'd' :: s).length - ('d' :: s).length) = d :=
      take_length_sub _ _
    simp only [Regex.run, lit]
    have h1 : ('%' == '[') = false := by decide
    simp only [h1, Bool.false_eq_true, if_false, beq_self_eq_true, if_true]
    rw [hgreedy _ (([[], [], [], []].set 1 p).set 2 d |>.set 3 s)]
    · rfl
    · simp only [beq_self_eq_true, if_true]
      rw [htake2]
      have ht := tail_match s (([[], [], [], []].set 1 p).set 2 d) hs2
      simp only [Regex.run, lit] at ht
      exact ht
  · intro x _
    rfl
  · intro p1 p2 h12 hne
    apply before_percent_fail
    · intro x hx
      exact hp x (by rw [h12]; exact List.mem_append_right _ hx)
    · exact hne
    · rw [h12, List.getLast?_append_of_ne_nil _ hne] at hlast
      exact hlast

theorem parseDigitsAux_eq (d : List Char) (acc : Nat) (hd : ∀ x ∈ d, digit x = true) :
    parseDigitsAux d acc = some (d.foldl (fun acc c => 10 * acc + (c.toNat - 48)) acc) := by
  induction d generalizing acc with
  | nil => rfl
  | cons c cs ih =>
    rw [parseDigitsAux, if_pos (hd c (by simp)), ih _ (fun x hx => hd x (List.mem_cons_of_mem _ hx))]
    rfl

theorem paddingOfDigits (d : List Char) (hd : ∀ x ∈ d, digit x = true)
    (hval : decimalValue d < 2 ^ 64) :
    (if d.length = 0 then some 0 else lexicalCastSizeT d) = some (decimalValue d) := by
  cases d with
  | nil => rfl
  | cons c cs =>
    rw [if_neg (by simp)]
    have hparse : parseDigits (c :: cs) = some (decimalValue (c :: cs)) :=
      parseDigitsAux_eq (c :: cs) 0 hd
    unfold lexicalCastSizeT
    rw [hparse]
    simp only [Option.some_bind]
    rw [if_pos hval]

theorem digit_ne (x : Char) (h : digit x = true) : x ≠ '#' ∧ x ≠ '@' ∧ x ≠ '\x00' := by
  refine ⟨?_, ?_, ?_⟩ <;>
  · intro e
    rw [e] at h
    exact absurd h (by decide)

/-- C12 (as amended): for a pattern `p ++ '%' ++ d ++ 'd' ++ s` where `d` is a possibly
empty string of decimal digits whose number is below `2^64`, `p` contains no `#`, `@` or
`%` and does not end with `[`, and `s` contains no `#` or `@` and does not start with `]`
(the pattern being a C string), `retrieveInfosFromPattern` with the Printf form accepted
returns true with prefix `p`, suffix `s`, strict padding false and, as padding, the
number written by `d` (0 when `d` is empty). -/
theorem retrieveInfosFromPattern_cStyle (p d s : List Char) (accept : EPattern)
    (sq : Sequence) (hacc : accept.cStyle = true)
    (hd : ∀ x ∈ d, digit x = true) (hval : decimalValue d < 2 ^ 64)
    (hp : ∀ x ∈ p, x ≠ '#' ∧ x ≠ '@' ∧ x ≠ '%') (hlast : p.getLast? ≠ some '[')
    (hs : ∀ x ∈ s, x ≠ '#' ∧ x ≠ '@') (hs2 : s.head? ≠ some ']')
    (hnul : ∀ x ∈ p ++ s, x ≠ '\x00') :
    retrieveInfosFromPattern (p ++ '%' :: (d ++ 'd' :: s)) accept sq =
      some (true, { sq with _prefix := p, _suffix := s, _padding := decimalValue d,
                            _strictPadding := false }) := by
  have hall : ∀ x ∈ p ++ '%' :: (d ++ 'd' :: s), x ≠ '#' ∧ x ≠ '@' ∧ x ≠ '\x00' := by
    intro x hx
    simp only [List.mem_append, List.mem_cons] at hx hnul
    rcases hx with hx | rfl | hx | rfl | hx
    · exact ⟨(hp x hx).1, (hp x hx).2.1, hnul x (Or.inl hx)⟩
    · decide
    · exact digit_ne x (hd x hx)
    · decide
    · exact ⟨(hs x hx).1, (hs x hx).2, hnul x (Or.inr hx)⟩
  have hcs : c_str (p ++ '%' :: (d ++ 'd' :: s)) = p ++ '%' :: (d ++ 'd' :: s) :=
    c_str_of_no_nul _ (fun x hx => (hall x hx).2.2)
  have hstd : (if accept.standard = true then
      regex_match (c_str (p ++ '%' :: (d ++ 'd' :: s))) regexPatternStandard else none) =
      none := by
    split
    · rw [hcs]
      exact regex_match_standard_none _ (fun x hx => ⟨(hall x hx).1, (hall x hx).2.1⟩)
    · rfl
  unfold retrieveInfosFromPattern
  rw [hstd]
  simp only
  rw [hacc, if_pos rfl, hcs,
    regex_match_cStyle p d s hd (fun x hx => (hp x hx).2.2) hlast hs2]
  simp only
  have hpad := paddingOfDigits d hd hval
  have hget : List.getD [[], p, d, s] 2 [] = d := rfl
  rw [hget, hpad]
  simp [storeAffixes]

theorem retrieveInfosFromPattern_cStyle_witness :
    retrieveInfosFromPattern "img.%04d.exr".toList acceptAll emptySequence =
      some (true, { emptySequence with _prefix := "img.".toList, _suffix := ".exr".toList,
                                       _padding := 4, _strictPadding := false }) :=
  retrieveInfosFromPattern_cStyle "img.".toList "04".toList ".exr".toList acceptAll
    emptySequence rfl (by decide) (by decide) (by decide) (by decide) (by decide) (by decide)
    (by decide)

/-- C12 (as stated, refuted): for `img[%04d].exr`, that is `p = img[`, `d = 04` and
`s = ].exr`, the brackets are not captured: the returned prefix is `img` and the suffix
`.exr`; and for `d` of twenty digits `9`, `lexical_cast` throws and nothing is
returned. -/
theorem retrieveInfosFromPattern_cStyle_brackets :
    retrieveInfosFromPattern ("img[".toList ++ '%' :: ("04".toList ++ 'd' :: "].exr".toList))
        acceptAll emptySequence =
      some (true, { emptySequence with _prefix := "img".toList, _suffix := ".exr".toList,
                                       _padding := 4, _strictPadding := false }) ∧
    retrieveInfosFromPattern
        ("img.".toList ++ '%' :: ("99999999999999999999".toList ++ 'd' :: ".exr".toList))
        acceptAll emptySequence = none := by
  decide

/-! ### The number of files after `initFromDetection` -/

/-- C16 (as amended): after `initFromDetection` returns true for an existing directory,
`nbFiles` equals the number of listed filenames accepted by `isIn` when that number is
not 1; when exactly one filename is accepted, with time `t`, the sequence is left as an
empty one: `nbFiles` is 0 and `firstTime = lastTime = t`, the time of that file. -/
theorem initFromDetection_nbFiles (s0 : Sequence) (filePattern : List Char)
    (accept : EPattern) (entries : List (List Char)) (S : Sequence)
    (h : initFromDetection s0 filePattern accept (some entries) = some (true, S)) :
    ((entries.filterMap (isIn S)).length ≠ 1 →
      S._nbFiles = (entries.filterMap (isIn S)).length) ∧
    ((entries.filterMap (isIn S)).length = 1 →
      S._nbFiles = 0 ∧
      ∃ t timeStr, entries.filterMap (isIn S) = [(t, timeStr)] ∧
        S._firstTime = t ∧ S._lastTime = t) := by
  obtain ⟨s1, hret, hp, hs, hcases⟩ := initFromDetection_cases s0 filePattern accept entries S h
  have hisIn : isIn S = isIn s1 := funext (isIn_congr S s1 hp hs)
  have hnb : s1._nbFiles = 0 := (retrieveInfosFromPattern_keeps _ _ _ _ _ hret).2.2.2
  rw [hisIn]
  have hlen : ((entries.filterMap (isIn s1)).map Prod.fst).length =
      (entries.filterMap (isIn s1)).length := List.length_map _ _
  rcases hcases with ⟨hnil, hS⟩ | ⟨t, hone, hS⟩ | ⟨h2, _, _, _, hn⟩
  · rw [hnil] at hlen
    rw [← hlen, hS]
    simp [hnb]
  · rw [hone] at hlen
    rw [← hlen, hS]
    refine ⟨fun hne => absurd rfl hne, fun _ => ⟨hnb, ?_⟩⟩
    generalize entries.filterMap (isIn s1) = found at hone
    match found, hone with
    | [(t1, timeStr)], hone =>
      simp only [List.map_cons, List.map_nil, List.cons.injEq, and_true] at hone
      exact ⟨t1, timeStr, rfl, hone.symm, hone.symm⟩
  · rw [hlen] at hn h2
    exact ⟨fun _ => hn, fun h1 => by omega⟩

/-- The listing `a.01.exr`, `b.txt`, `a.100.exr` (two accepted files) and the listing
`a.5.exr`, `b.txt` (one accepted file) for the pattern `a.#.exr`. -/
theorem initFromDetection_nbFiles_witness :
    (initFromDetection emptySequence "a.#.exr".toList acceptAll
        (some ["a.01.exr".toList, "b.txt".toList, "a.100.exr".toList]) =
      some (true, mixedWidthSequence) ∧
     (["a.01.exr".toList, "b.txt".toList, "a.100.exr".toList].filterMap
       (isIn mixedWidthSequence)).length = 2 ∧
     mixedWidthSequence._nbFiles = 2) ∧
    (initFromDetection emptySequence "a.#.exr".toList acceptAll
        (some ["a.5.exr".toList, "b.txt".toList]) = some (true, singleFileSequence) ∧
     (["a.5.exr".toList, "b.txt".toList].filterMap (isIn singleFileSequence)).length = 1 ∧
     (singleFileSequence._nbFiles = 0 ∧
      ∃ t timeStr, ["a.5.exr".toList, "b.txt".toList].filterMap (isIn singleFileSequence) =
          [(t, timeStr)] ∧
        singleFileSequence._firstTime = t ∧ singleFileSequence._lastTime = t)) :=
  ⟨⟨by decide, by decide,
    (initFromDetection_nbFiles emptySequence "a.#.exr".toList acceptAll
      ["a.01.exr".toList, "b.txt".toList, "a.100.exr".toList] mixedWidthSequence
      (by decide)).1 (by decide)⟩,
   ⟨by decide, by decide,
    (initFromDetection_nbFiles emptySequence "a.#.exr".toList acceptAll
      ["a.5.exr".toList, "b.txt".toList] singleFileSequence (by decide)).2 (by decide)⟩⟩

/-! ### `lexical_cast` to `Time` -/

theorem parseDigitsAux_some (d : List Char) (acc v : Nat) (h : parseDigitsAux d acc = some v) :
    (∀ x ∈ d, digit x = true) ∧
      v = d.foldl (fun acc c => 10 * acc + (c.toNat - 48)) acc := by
  induction d generalizing acc with
  | nil =>
    simp only [parseDigitsAux, Option.some.injEq] at h
    exact ⟨by simp, h.symm⟩
  | cons c cs ih =>
    rw [parseDigitsAux] at h
    split at h
    · rename_i hc
      obtain ⟨h1, h2⟩ := ih _ h
      refine ⟨?_, h2⟩
      intro x hx
      rcases List.mem_cons.1 hx with rfl | hx
      · exact hc
      · exact h1 x hx
    · exact absurd h (by simp)

theorem parseDigits_eq_some_iff (d : List Char) (v : Nat) :
    parseDigits d = some v ↔ d ≠ [] ∧ (∀ x ∈ d, digit x = true) ∧ v = decimalValue d := by
  cases d with
  | nil => simp [parseDigits]
  | cons c cs =>
    have hp : parseDigits (c :: cs) = parseDigitsAux (c :: cs) 0 := rfl
    rw [hp]
    constructor
    · intro h
      obtain ⟨h1, h2⟩ := parseDigitsAux_some _ _ _ h
      exact ⟨by simp, h1, h2⟩
    · rintro ⟨_, h1, h2⟩
      rw [parseDigitsAux_eq _ _ h1, h2]
      rfl

theorem digit_not_sign (c : Char) (h : digit c = true) : c ≠ '-' ∧ c ≠ '+' := by
  constructor <;>
  · intro e
    rw [e] at h
    exact absurd h (by decide)

theorem lexicalCastTime_iff (str : List Char) (v : Int) :
    lexicalCastTime str = some v ↔ SignedDecimal64 str v := by
  constructor
  · intro h
    unfold lexicalCastTime at h
    split at h
    · rename_i ds
      rw [Option.bind_eq_some] at h
      obtain ⟨n, hn, hv⟩ := h
      obtain ⟨h1, h2, h3⟩ := (parseDigits_eq_some_iff ds n).1 hn
      split at hv
      · simp only [Option.some.injEq] at hv
        refine ⟨['-'], ds, rfl, Or.inr (Or.inr rfl), h1, h2, ?_, ?_, ?_⟩
        · rw [if_pos rfl, ← h3, hv]
        · omega
        · omega
      · exact absurd hv (by simp)
    · rename_i ds
      rw [Option.bind_eq_some] at h
      obtain ⟨n, hn, hv⟩ := h
      obtain ⟨h1, h2, h3⟩ := (parseDigits_eq_some_iff ds n).1 hn
      split at hv
      · simp only [Option.some.injEq] at hv
        refine ⟨['+'], ds, rfl, Or.inr (Or.inl rfl), h1, h2, ?_, ?_, ?_⟩
        · rw [if_neg (by decide), ← h3, hv]
        · omega
        · omega
      · exact absurd hv (by simp)
    · rw [Option.bind_eq_some] at h
      obtain ⟨n, hn, hv⟩ := h
      obtain ⟨h1, h2, h3⟩ := (parseDigits_eq_some_iff str n).1 hn
      split at hv
      · simp only [Option.some.injEq] at hv
        refine ⟨[], str, rfl, Or.inl rfl, h1, h2, ?_, ?_, ?_⟩
        · rw [if_neg (by decide), ← h3, hv]
        · omega
        · omega
      · exact absurd hv (by simp)
  · rintro ⟨sign, digits, rfl, hsign, hne, hd, hv, hlo, hhi⟩
    have hparse : parseDigits digits = some (decimalValue digits) :=
      (parseDigits_eq_some_iff digits _).2 ⟨hne, hd, rfl⟩
    rcases hsign with rfl | rfl | rfl
    · rw [if_neg (by decide)] at hv
      match digits, hne, hd, hparse, hv with
      | c :: cs, _, hd, hparse, hv =>
        obtain ⟨hm, hp⟩ := digit_not_sign c (hd c (by simp))
        have hform : lexicalCastTime ([] ++ c :: cs) =
            (parseDigits (c :: cs)).bind
              (fun v => if v < 2 ^ 63 then some (v : Int) else none) := by
          unfold lexicalCastTime
          split
          · rename_i ds heq
            simp only [List.nil_append, List.cons.injEq] at heq
            exact absurd heq.1 hm
          · rename_i ds heq
            simp only [List.nil_append, List.cons.injEq] at heq
            exact absurd heq.1 hp
          · rfl
        rw [hform, hparse]
        simp only [Option.some_bind]
        rw [if_pos (by omega), hv]
    · rw [if_neg (by decide)] at hv
      have hform : lexicalCastTime (['+'] ++ digits) =
          (parseDigits digits).bind
            (fun v => if v < 2 ^ 63 then some (v : Int) else none) := rfl
      rw [hform, hparse]
      simp only [Option.some_bind]
      rw [if_pos (by omega), hv]
    · rw [if_pos rfl] at hv
      have hform : lexicalCastTime (['-'] ++ digits) =
          (parseDigits digits).bind
            (fun v => if v ≤ 2 ^ 63 then some (-(v : Int)) else none) := rfl
      rw [hform, hparse]
      simp only [Option.some_bind]
      rw [if_pos (by omega), hv]

/-! ### `isIn` -/

theorem isIn_of_parts (s : Sequence) (filename : List Char) (t : Int)
    (hlen : s._prefix.length + s._suffix.length < filename.length)
    (hpre : s._prefix <+: filename) (hsuf : s._suffix <:+ filename)
    (hcast : lexicalCastTime (substr filename s._prefix.length
      (filename.length - s._suffix.length - s._prefix.length)) = some t) :
    isIn s filename = some (t, substr filename s._prefix.length
      (filename.length - s._suffix.length - s._prefix.length)) := by
  have h1 : substr filename 0 s._prefix.length = s._prefix := by
    unfold substr
    rw [List.drop_zero]
    exact (List.prefix_iff_eq_take.1 hpre).symm
  have h2 : substr filename (filename.length - s._suffix.length) s._suffix.length =
      s._suffix := by
    unfold substr
    rw [← List.suffix_iff_eq_drop.1 hsuf]
    exact List.take_of_length_le (le_refl _)
  unfold isIn
  simp only
  rw [if_neg (by omega), if_neg (by rw [h1, h2]; simp), hcast]

/-- C21: `isIn( filename )` returns true if and only if `filename` is strictly longer than
prefix + suffix, starts with the prefix, ends with the suffix, and the substring between
them reads completely as a signed 64-bit decimal integer; it then outputs that substring
as `timeStr` and its value as `time`. The padding and the strict padding of the sequence
play no part. -/
theorem isIn_iff (s : Sequence) (filename : List Char) :
    ((isIn s filename).isSome = true ↔
      (s._prefix.length + s._suffix.length < filename.length ∧
        s._prefix <+: filename ∧ s._suffix <:+ filename ∧
        ∃ v, SignedDecimal64 (substr filename s._prefix.length
          (filename.length - s._suffix.length - s._prefix.length)) v)) ∧
    (∀ time timeStr, isIn s filename = some (time, timeStr) →
      timeStr = substr filename s._prefix.length
        (filename.length - s._suffix.length - s._prefix.length) ∧
      filename = s._prefix ++ timeStr ++ s._suffix ∧
      SignedDecimal64 timeStr time) ∧
    (∀ (padding : Nat) (strictPadding : Bool),
      isIn { s with _padding := padding, _strictPadding := strictPadding } filename =
        isIn s filename) := by
  have hout : ∀ time timeStr, isIn s filename = some (time, timeStr) →
      timeStr = substr filename s._prefix.length
        (filename.length - s._suffix.length - s._prefix.length) ∧
      filename = s._prefix ++ timeStr ++ s._suffix ∧
      SignedDecimal64 timeStr time := by
    intro time timeStr h
    obtain ⟨hfile, hcast⟩ := isIn_some s filename timeStr time h
    refine ⟨?_, hfile, (lexicalCastTime_iff _ _).1 hcast⟩
    have hl : filename.length = s._prefix.length + timeStr.length + s._suffix.length := by
      have := congrArg List.length hfile
      simp only [List.length_append] at this
      omega
    have hk : filename.length - s._suffix.length - s._prefix.length = timeStr.length := by
      omega
    rw [hk]
    unfold substr
    have hd : filename.drop s._prefix.length = timeStr ++ s._suffix := by
      rw [hfile, List.append_assoc, List.drop_left]
    rw [hd, List.take_left]
  refine ⟨⟨?_, ?_⟩, hout, ?_⟩
  · intro h
    obtain ⟨⟨time, timeStr⟩, hsome⟩ := Option.isSome_iff_exists.1 h
    obtain ⟨hts, hfile, hdec⟩ := hout time timeStr hsome
    have hne : timeStr ≠ [] := by
      obtain ⟨sign, digits, rfl, _, hne, _⟩ := hdec
      simp [hne]
    have hpos : 0 < timeStr.length := List.length_pos.2 hne
    refine ⟨?_, ?_, ?_, time, hts ▸ hdec⟩
    · rw [hfile]
      simp only [List.length_append]
      omega
    · exact ⟨timeStr ++ s._suffix, by rw [hfile, List.append_assoc]⟩
    · exact ⟨s._prefix ++ timeStr, hfile.symm⟩
  · rintro ⟨hlen, hpre, hsuf, v, hv⟩
    rw [isIn_of_parts s filename v hlen hpre hsuf ((lexicalCastTime_iff _ _).2 hv)]
    rfl
  · intro padding strictPadding
    exact isIn_congr _ _ rfl rfl filename

/-! ### `init` from a pattern -/

theorem retrieveInfosFromPattern_false (filePattern : List Char) (accept : EPattern)
    (s s1 : Sequence) (h : retrieveInfosFromPattern filePattern accept s = some (false, s1)) :
    s1 = s := by
  unfold retrieveInfosFromPattern at h
  simp only at h
  repeat' split at h
  all_goals
    first
    | (simp only [Option.some.injEq, Prod.mk.injEq, true_and] at h
       exact h.symm)
    | simp at h

/-- C22: failure is atomic. Whenever `init( pattern, firstTime, lastTime, step, accept )`
returns false, which it does only when `retrieveInfosFromPattern` recognised no accepted
form, the sequence is the one before the call: no field has been modified. -/
theorem init_false_unchanged (s s1 : Sequence) (pattern : List Char)
    (firstTime lastTime step : Int) (accept : EPattern)
    (h : init s pattern firstTime lastTime step accept = some (false, s1)) :
    s1 = s ∧ retrieveInfosFromPattern pattern accept s = some (false, s) := by
  unfold init at h
  split at h
  · simp at h
  · rename_i s2 hret
    simp only [Option.some.injEq, Prod.mk.injEq, true_and] at h
    subst h
    have := retrieveInfosFromPattern_false pattern accept s s2 hret
    subst this
    exact ⟨rfl, hret⟩
  · simp at h

theorem init_false_unchanged_witness :
    init mixedWidthSequence "shot.exr".toList 1 10 1 acceptAll =
      some (false, mixedWidthSequence) ∧
    (mixedWidthSequence = mixedWidthSequence ∧
      retrieveInfosFromPattern "shot.exr".toList acceptAll mixedWidthSequence =
        some (false, mixedWidthSequence)) :=
  ⟨by decide, init_false_unchanged mixedWidthSequence mixedWidthSequence "shot.exr".toList
    1 10 1 acceptAll (by decide)⟩

/-! ### Decimal digits of a number -/

theorem toDigitsCore_append (f n : Nat) (ds : List Char) :
    Nat.toDigitsCore 10 f n ds = Nat.toDigitsCore 10 f n [] ++ ds := by
  induction f generalizing n ds with
  | zero => simp [Nat.toDigitsCore]
  | succ f ih =>
    simp only [Nat.toDigitsCore]
    split
    · simp
    · rw [ih (n / 10) (Nat.digitChar (n % 10) :: ds), ih (n / 10) [Nat.digitChar (n % 10)]]
      simp

theorem toDigitsCore_fuel (f1 f2 n : Nat) (ds : List Char) (h1 : n < f1) (h2 : n < f2) :
    Nat.toDigitsCore 10 f1 n ds = Nat.toDigitsCore 10 f2 n ds := by
  induction f1 generalizing f2 n ds with
  | zero => omega
  | succ f1 ih =>
    cases f2 with
    | zero => omega
    | succ f2 =>
      simp only [Nat.toDigitsCore]
      split
      · rfl
      · rename_i hne
        have hlt : n / 10 < n := Nat.div_lt_self (by omega) (by decide)
        exact ih f2 (n / 10) _ (by omega) (by omega)

theorem toDigits_lt (n : Nat) (h : n < 10) : Nat.toDigits 10 n = [Nat.digitChar n] := by
  unfold Nat.toDigits
  simp only [Nat.toDigitsCore]
  rw [if_pos (by omega), Nat.mod_eq_of_lt h]

theorem toDigits_ge (n : Nat) (h : 10 ≤ n) :
    Nat.toDigits 10 n = Nat.toDigits 10 (n / 10) ++ [Nat.digitChar (n % 10)] := by
  unfold Nat.toDigits
  have hstep : Nat.toDigitsCore 10 (n + 1) n [] =
      Nat.toDigitsCore 10 n (n / 10) [Nat.digitChar (n % 10)] := by
    simp only [Nat.toDigitsCore]
    rw [if_neg (by omega)]
  rw [hstep, toDigitsCore_append,
    toDigitsCore_fuel n (n / 10 + 1) (n / 10) [] (by omega) (by omega)]

theorem digitChar_of_digit (c : Char) (h : digit c = true) :
    Nat.digitChar (c.toNat - 48) = c ∧ c.toNat - 48 < 10 := by
  have hb : 48 ≤ c.toNat ∧ c.toNat ≤ 57 := by
    unfold digit at h
    simp only [Bool.and_eq_true, decide_eq_true_eq] at h
    exact ⟨h.1, h.2⟩
  have hc : c = Char.ofNat c.toNat := (Char.ofNat_toNat c).symm
  obtain ⟨h1, h2⟩ := hb
  generalize c.toNat = n at hc h1 h2
  subst hc
  interval_cases n <;> exact ⟨by decide, by decide⟩


theorem decimalValue_append (l : List Char) (c : Char) :
    decimalValue (l ++ [c]) = 10 * decimalValue l + (c.toNat - 48) := by
  simp [decimalValue, List.foldl_append]

theorem zeroPad_toDigits (d : List Char) (hne : d ≠ []) (hd : ∀ c ∈ d, digit c = true) :
    List.replicate (d.length - (Nat.toDigits 10 (decimalValue d)).length) '0' ++
        Nat.toDigits 10 (decimalValue d) = d ∧
      (Nat.toDigits 10 (decimalValue d)).length ≤ d.length := by
  induction d using List.reverseRecOn with
  | nil => exact absurd rfl hne
  | append_singleton l c ih =>
    obtain ⟨hc, hclt⟩ := digitChar_of_digit c (hd c (by simp))
    rw [decimalValue_append]
    by_cases hl : l = []
    · subst hl
      have hv : decimalValue [] = 0 := rfl
      rw [hv, Nat.mul_zero, Nat.zero_add, toDigits_lt _ hclt, hc]
      simp
    · obtain ⟨ihe, ihl⟩ := ih hl (fun x hx => hd x (by simp [hx]))
      have hlen : 1 ≤ l.length := List.length_pos.2 hl
      by_cases h0 : decimalValue l = 0
      · rw [h0] at ihe
        rw [h0, Nat.mul_zero, Nat.zero_add, toDigits_lt _ hclt, hc]
        have hT : Nat.toDigits 10 0 = ['0'] := by decide
        rw [hT] at ihe
        have hrep : List.replicate l.length '0' = l := by
          have : l.length = (l.length - 1) + 1 := by omega
          rw [this, List.replicate_succ']
          simpa using ihe
        refine ⟨?_, by simp⟩
        simp only [List.length_append, List.length_singleton, Nat.add_sub_cancel]
        rw [hrep]
      · have hge : 10 ≤ 10 * decimalValue l + (c.toNat - 48) := by omega
        have hdiv : (10 * decimalValue l + (c.toNat - 48)) / 10 = decimalValue l := by omega
        have hmod : (10 * decimalValue l + (c.toNat - 48)) % 10 = c.toNat - 48 := by omega
        rw [toDigits_ge _ hge, hdiv, hmod, hc]
        refine ⟨?_, by simp; omega⟩
        simp only [List.length_append, List.length_singleton, Nat.add_sub_add_right]
        rw [← List.append_assoc, ihe]

theorem digit_digitChar (n : Nat) (h : n < 10) :
    digit (Nat.digitChar n) = true ∧ (Nat.digitChar n).toNat - 48 = n ∧
      (n ≠ 0 → Nat.digitChar n ≠ '0') := by
  interval_cases n <;> decide

theorem toDigits_spec (n : Nat) :
    Nat.toDigits 10 n ≠ [] ∧ (∀ c ∈ Nat.toDigits 10 n, digit c = true) ∧
      decimalValue (Nat.toDigits 10 n) = n ∧
      (Nat.toDigits 10 n = ['0'] ∨ charAt0 (Nat.toDigits 10 n) ≠ '0') := by
  induction n using Nat.strong_induction_on with
  | _ n ih =>
    by_cases hlt : n < 10
    · obtain ⟨hd, hv, hz⟩ := digit_digitChar n hlt
      rw [toDigits_lt n hlt]
      refine ⟨by simp, by simpa using hd, by simpa [decimalValue] using hv, ?_⟩
      by_cases h0 : n = 0
      · left
        rw [h0]
        rfl
      · right
        exact hz h0
    · obtain ⟨hne, hd, hv, hz⟩ := ih (n / 10) (by omega)
      obtain ⟨hd2, hv2, _⟩ := digit_digitChar (n % 10) (Nat.mod_lt _ (by decide))
      rw [toDigits_ge n (by omega)]
      refine ⟨by simp, ?_, ?_, ?_⟩
      · intro c hc
        rcases List.mem_append.1 hc with hc | hc
        · exact hd c hc
        · rw [List.mem_singleton.1 hc]
          exact hd2
      · rw [decimalValue_append, hv, hv2]
        omega
      · right
        rcases hz with h0 | hh
        · exfalso
          have : decimalValue (Nat.toDigits 10 (n / 10)) = 0 := by rw [h0]; rfl
          omega
        · match hT : Nat.toDigits 10 (n / 10), hne, hh with
          | c :: cs, _, hh => exact hh

theorem decimalValue_zeros (k : Nat) (d : List Char) :
    decimalValue (List.replicate k '0' ++ d) = decimalValue d := by
  induction k with
  | zero => rfl
  | succ k ih =>
    rw [List.replicate_succ, List.cons_append]
    exact ih

/-! ### Rendering of the observed members -/

theorem renderNumber_eq (t : Int) (p : Nat) (b : Bool) :
    renderNumber t p b = (if t < 0 then ['-'] else []) ++
      (List.replicate (p - (Nat.toDigits 10 t.natAbs).length) '0' ++
        Nat.toDigits 10 t.natAbs) := by
  unfold renderNumber
  simp only
  cases b
  · by_cases hp : p > 0 ∧ (Nat.toDigits 10 t.natAbs).length < p
    · simp [hp]
    · have h0 : p - (Nat.toDigits 10 t.natAbs).length = 0 := by omega
      rw [h0]
      simp [hp]
  · simp

theorem digitsOf_cases (timeStr : List Char) :
    (timeStr = '-' :: digitsOf timeStr) ∨ (timeStr = digitsOf timeStr ∧ charAt0 timeStr ≠ '-') := by
  cases timeStr with
  | nil => exact Or.inr ⟨rfl, by decide⟩
  | cons c d =>
    by_cases hc : c = '-'
    · left
      simp [digitsOf, hc]
    · right
      simp [digitsOf, hc, charAt0]

theorem parseDigits_digits (d : List Char) (hne : d ≠ []) (hd : ∀ c ∈ d, digit c = true) :
    parseDigits d = some (decimalValue d) := by
  cases d with
  | nil => exact absurd rfl hne
  | cons c cs => exact parseDigitsAux_eq (c :: cs) 0 hd

/-- The time that `lexical_cast` reads from a plain number. -/
theorem lexicalCastTime_plain (timeStr : List Char) (t : Int) (hplain : PlainNumber timeStr)
    (hcast : lexicalCastTime timeStr = some t) :
    t.natAbs = decimalValue (digitsOf timeStr) ∧
      timeStr = (if t < 0 then ['-'] else []) ++ digitsOf timeStr := by
  obtain ⟨hne, hd, hval⟩ := hplain
  have hparse := parseDigits_digits _ hne hd
  rcases digitsOf_cases timeStr with hneg | ⟨hpos, hnot⟩
  · have hv : decimalValue (digitsOf timeStr) ≠ 0 := by
      apply hval
      intro e
      have := congrArg List.length hneg
      rw [← e] at this
      simp at this
    generalize digitsOf timeStr = d at hneg hparse hv
    subst hneg
    simp only [lexicalCastTime, hparse, Option.some_bind] at hcast
    split at hcast
    · simp only [Option.some.injEq] at hcast
      subst hcast
      have hlt : -(decimalValue d : Int) < 0 := by omega
      rw [if_pos hlt]
      exact ⟨by simp, rfl⟩
    · simp at hcast
  · generalize digitsOf timeStr = d at hpos hparse hne hd
    subst hpos
    match timeStr, hne, hnot, hd, hparse, hcast with
    | c :: cs, _, hnot, hd, hparse, hcast =>
      have hc := digit_not_sign c (hd c (by simp))
      have hcastEq : lexicalCastTime (c :: cs) =
          (parseDigits (c :: cs)).bind
            (fun v => if v < 2 ^ 63 then some (v : Int) else none) := by
        unfold lexicalCastTime
        split
        · rename_i heq
          simp only [List.cons.injEq] at heq
          exact absurd heq.1 hc.1
        · rename_i heq
          simp only [List.cons.injEq] at heq
          exact absurd heq.1 hc.2
        · rfl
      rw [hcastEq, hparse, Option.some_bind] at hcast
      split at hcast
      · simp only [Option.some.injEq] at hcast
        subst hcast
        have hge : ¬ ((decimalValue (c :: cs) : Int) < 0) := by omega
        rw [if_neg hge]
        exact ⟨by simp, rfl⟩
      · simp at hcast

theorem toDigits_of_noLeadingZero (d : List Char) (hne : d ≠ [])
    (hd : ∀ c ∈ d, digit c = true) (hz : d = ['0'] ∨ charAt0 d ≠ '0') :
    Nat.toDigits 10 (decimalValue d) = d := by
  obtain ⟨he, hl⟩ := zeroPad_toDigits d hne hd
  rcases hz with h0 | hhead
  · subst h0
    decide
  · by_cases hk : d.length - (Nat.toDigits 10 (decimalValue d)).length = 0
    · rw [hk] at he
      simpa using he
    · exfalso
      obtain ⟨k, hk2⟩ := Nat.exists_eq_succ_of_ne_zero hk
      rw [hk2, List.replicate_succ] at he
      apply hhead
      rw [← he]
      rfl

/-- A plain number that fits the padding is its own rendering. -/
theorem renderNumber_of_fits (timeStr : List Char) (t : Int) (p : Nat) (b : Bool)
    (hplain : PlainNumber timeStr) (hcast : lexicalCastTime timeStr = some t)
    (hfit : FitsPadding timeStr p) : renderNumber t p b = timeStr := by
  obtain ⟨habs, hstr⟩ := lexicalCastTime_plain timeStr t hplain hcast
  obtain ⟨hne, hd, _⟩ := hplain
  rw [renderNumber_eq, habs]
  nth_rewrite 3 [hstr]
  congr 1
  rcases hfit with hlen | ⟨hz, hle⟩
  · rw [← hlen]
    exact (zeroPad_toDigits _ hne hd).1
  · rw [toDigits_of_noLeadingZero _ hne hd hz]
    have h0 : p - (digitsOf timeStr).length = 0 := by omega
    rw [h0]
    rfl

theorem getPaddingFromStringNumber_plain (timeStr : List Char) (hplain : PlainNumber timeStr) :
    getPaddingFromStringNumber timeStr = (digitsOf timeStr).length := by
  obtain ⟨hne, hd, _⟩ := hplain
  rcases digitsOf_cases timeStr with hneg | ⟨hpos, hnot⟩
  · generalize digitsOf timeStr = d at hneg hne
    subst hneg
    have hlen : 1 ≤ d.length := List.length_pos.2 hne
    unfold getPaddingFromStringNumber
    rw [if_pos (by simp; omega)]
    simp [charAt0]
  · rw [← hpos] at hd hne ⊢
    match timeStr, hne, hd with
    | c :: cs, _, hd =>
      have hc := digit_not_sign c (hd c (by simp))
      exact getPaddingFromStringNumber_unsigned (c :: cs) hc.1 hc.2

/-- The padding that `initFromDetection` stores: the padding of the pattern when fewer
than two filenames are accepted, and else the result of `extractPadding` on the accepted
time strings. -/
theorem initFromDetection_padding (s0 : Sequence) (filePattern : List Char) (accept : EPattern)
    (entries : List (List Char)) (S : Sequence)
    (h : initFromDetection s0 filePattern accept (some entries) = some (true, S)) :
    ∃ s1, retrieveInfosFromPattern filePattern accept (clear s0) = some (true, s1) ∧
      ((entries.filterMap (isIn s1)).length < 2 → S._padding = s1._padding) ∧
      (2 ≤ (entries.filterMap (isIn s1)).length →
        ∃ front rest, (entries.filterMap (isIn s1)).map Prod.snd = front :: rest ∧
          S._padding =
            if ∀ str ∈ front :: rest,
              getPaddingFromStringNumber str = getPaddingFromStringNumber front
            then getPaddingFromStringNumber front else 0) := by
  unfold initFromDetection at h
  split at h
  · simp at h
  · simp at h
  · rename_i s1 hret
    refine ⟨s1, hret, ?_⟩
    simp only at h
    split at h
    · rename_i hlt
      rw [List.length_map] at hlt
      refine ⟨fun _ => ?_, fun h2 => absurd hlt (by omega)⟩
      split at h <;>
      · simp only [Option.some.injEq, Prod.mk.injEq, true_and] at h
        subst h
        rfl
    · rename_i hge
      rw [List.length_map] at hge
      refine ⟨fun hlt => absurd hlt hge, fun _ => ?_⟩
      have hslen : (sortTimes ((entries.filterMap (isIn s1)).map Prod.fst)).length =
          (entries.filterMap (isIn s1)).length := by
        unfold sortTimes
        rw [List.length_insertionSort, List.length_map]
      rw [extractStep_eq _ _ _ (by omega) (le_refl _)] at h
      simp only at h
      split at h
      · simp at h
      · rename_i s3 hpad
        simp only [Option.some.injEq, Prod.mk.injEq, true_and] at h
        subst h
        have hstrict := extractIsStrictPadding_padding s3
          ((entries.filterMap (isIn s1)).map Prod.snd) s3._padding
        generalize (entries.filterMap (isIn s1)).map Prod.snd = strs at hpad hstrict
        match strs, hpad, hstrict with
        | [], hpad, _ => simp [extractPadding] at hpad
        | front :: rest, hpad, hstrict =>
          refine ⟨front, rest, rfl, ?_⟩
          rw [extractPadding_eq] at hpad
          simp only [Option.some.injEq] at hpad
          show Sequence._padding (extractIsStrictPadding s3 (front :: rest) s3._padding) = _
          rw [hstrict, ← hpad]

/-- C7 (as amended): for a sequence `S` built by `initFromDetection` from a directory
listing whose accepted filenames have pairwise distinct frame times and time strings
written as plain numbers (decimal digits, after a `-` only for a number other than zero),
either all with the same number of digits or all without a leading zero, every observed
member (every listed filename accepted by `isIn`) equals
`S.prefix + renderNumber(t, S.padding, S.strictPadding) + S.suffix` for a time
`t = S.firstTime + k * S.step` with `S.firstTime ≤ t ≤ S.lastTime`. When fewer than two
filenames are accepted, the padding is the one read from the pattern, and the accepted
time string is required to fit it (that many digits, or no leading zero and at least that
many digits). -/
theorem initFromDetection_members_rendered (s0 : Sequence) (filePattern : List Char)
    (accept : EPattern) (entries : List (List Char)) (S : Sequence)
    (h : initFromDetection s0 filePattern accept (some entries) = some (true, S))
    (hdistinct : ((entries.filterMap (isIn S)).map Prod.fst).Nodup)
    (hplain : ∀ p ∈ entries.filterMap (isIn S), PlainNumber p.2)
    (hwidth : (∀ p ∈ entries.filterMap (isIn S), ∀ q ∈ entries.filterMap (isIn S),
          (digitsOf p.2).length = (digitsOf q.2).length) ∨
        (∀ p ∈ entries.filterMap (isIn S), NoLeadingZero p.2))
    (hfew : (entries.filterMap (isIn S)).length < 2 →
        ∃ s1, retrieveInfosFromPattern filePattern accept (clear s0) = some (true, s1) ∧
          ∀ p ∈ entries.filterMap (isIn S), FitsPadding p.2 s1._padding) :
    ∀ m ∈ entries, ∀ t timeStr, isIn S m = some (t, timeStr) →
      m = S._prefix ++ renderNumber t S._padding S._strictPadding ++ S._suffix ∧
      S._firstTime ≤ t ∧ t ≤ S._lastTime ∧ ∃ k : Nat, t = S._firstTime + k * S._step := by
  intro m hm t timeStr hin
  obtain ⟨hm_eq, hcast, hle, hge, hk⟩ :=
    initFromDetection_observed_members s0 filePattern accept entries S h hdistinct
      m hm t timeStr hin
  refine ⟨?_, hle, hge, hk⟩
  have hmem : (t, timeStr) ∈ entries.filterMap (isIn S) := List.mem_filterMap.2 ⟨m, hm, hin⟩
  have hfit : FitsPadding timeStr S._padding := by
    obtain ⟨s1, hret, hp, hs, _⟩ := initFromDetection_cases s0 filePattern accept entries S h
    obtain ⟨s1b, hretb, hfewPad, hmanyPad⟩ :=
      initFromDetection_padding s0 filePattern accept entries S h
    have hs1 : s1b = s1 := by
      rw [hret] at hretb
      simp only [Option.some.injEq, Prod.mk.injEq, true_and] at hretb
      exact hretb.symm
    subst hs1
    have hisIn : isIn S = isIn s1b := funext (isIn_congr S s1b hp hs)
    rw [← hisIn] at hfewPad hmanyPad
    by_cases hlt : (entries.filterMap (isIn S)).length < 2
    · obtain ⟨s1c, hretc, hfits⟩ := hfew hlt
      have hs1c : s1c = s1b := by
        rw [hret] at hretc
        simp only [Option.some.injEq, Prod.mk.injEq, true_and] at hretc
        exact hretc.symm
      subst hs1c
      rw [hfewPad hlt]
      exact hfits (t, timeStr) hmem
    · obtain ⟨front, rest, hstrs, hpad⟩ := hmanyPad (by omega)
      have hwidthOf : ∀ str ∈ front :: rest,
          PlainNumber str ∧ ∃ p ∈ entries.filterMap (isIn S), p.2 = str := by
        intro str hstr
        rw [← hstrs, List.mem_map] at hstr
        obtain ⟨p, hp1, hp2⟩ := hstr
        exact ⟨hp2 ▸ hplain p hp1, p, hp1, hp2⟩
      have htimeStr : timeStr ∈ front :: rest := by
        rw [← hstrs, List.mem_map]
        exact ⟨(t, timeStr), hmem, rfl⟩
      have hfront : front ∈ front :: rest := List.mem_cons_self _ _
      rw [hpad]
      by_cases hall : ∀ str ∈ front :: rest,
          getPaddingFromStringNumber str = getPaddingFromStringNumber front
      · rw [if_pos hall]
        left
        rw [← getPaddingFromStringNumber_plain timeStr (hplain _ hmem)]
        exact hall timeStr htimeStr
      · rw [if_neg hall]
        rcases hwidth with hsame | hcanon
        · exfalso
          apply hall
          intro str hstr
          obtain ⟨hpl, p, hp1, hp2⟩ := hwidthOf str hstr
          obtain ⟨hplf, q, hq1, hq2⟩ := hwidthOf front hfront
          rw [getPaddingFromStringNumber_plain str hpl,
            getPaddingFromStringNumber_plain front hplf, ← hp2, ← hq2]
          exact hsame p hp1 q hq1
        · right
          exact ⟨hcanon (t, timeStr) hmem, Nat.zero_le _⟩
  rw [renderNumber_of_fits timeStr t _ _ (hplain _ hmem) hcast hfit]
  exact hm_eq

/-- The member `a.02.exr` of the listing `a.01.exr`, `b.txt`, `a.02.exr`, `a.10.exr` for
the pattern `a.#.exr` (padding 2 from the listing), and the only member `a.0005.exr` of a
listing for the pattern `a.####.exr` (padding 4 from the pattern). -/
theorem initFromDetection_members_rendered_witness :
    (initFromDetection emptySequence "a.#.exr".toList acceptAll
        (some ["a.01.exr".toList, "b.txt".toList, "a.02.exr".toList, "a.10.exr".toList]) =
      some (true, uniformWidthSequence) ∧
     isIn uniformWidthSequence "a.02.exr".toList = some (2, "02".toList) ∧
     ("a.02.exr".toList = "a.".toList ++ renderNumber 2 2 true ++ ".exr".toList ∧
      (1 : Int) ≤ 2 ∧ (2 : Int) ≤ 10 ∧ ∃ k : Nat, (2 : Int) = 1 + k * (1 : Nat))) ∧
    (initFromDetection emptySequence "a.####.exr".toList acceptAll
        (some ["a.0005.exr".toList, "b.txt".toList]) = some (true, paddedSingleSequence) ∧
     isIn paddedSingleSequence "a.0005.exr".toList = some (5, "0005".toList) ∧
     ("a.0005.exr".toList = "a.".toList ++ renderNumber 5 4 true ++ ".exr".toList ∧
      (5 : Int) ≤ 5 ∧ (5 : Int) ≤ 5 ∧ ∃ k : Nat, (5 : Int) = 5 + k * (1 : Nat))) :=
  ⟨⟨by decide, by decide,
    initFromDetection_members_rendered emptySequence "a.#.exr".toList acceptAll
      ["a.01.exr".toList, "b.txt".toList, "a.02.exr".toList, "a.10.exr".toList]
      uniformWidthSequence (by decide) (by decide) (by decide) (Or.inl (by decide))
      (fun hlt => absurd hlt (by decide)) "a.02.exr".toList (by decide) 2 "02".toList
      (by decide)⟩,
   ⟨by decide, by decide,
    initFromDetection_members_rendered emptySequence "a.####.exr".toList acceptAll
      ["a.0005.exr".toList, "b.txt".toList] paddedSingleSequence (by decide) (by decide)
      (by decide) (Or.inl (by decide))
      (fun _ => ⟨{ emptySequence with _prefix := "a.".toList, _suffix := ".exr".toList,
                                      _padding := 4, _strictPadding := true },
        by decide, by decide⟩)
      "a.0005.exr".toList (by decide) 5 "0005".toList (by decide)⟩⟩

/-- Every rendering is a plain number that fits the padding. -/
theorem renderNumber_plain (t : Int) (p : Nat) (b : Bool) :
    PlainNumber (renderNumber t p b) ∧ FitsPadding (renderNumber t p b) p := by
  obtain ⟨hne, hd, hv, hz⟩ := toDigits_spec t.natAbs
  rw [renderNumber_eq]
  generalize hT : Nat.toDigits 10 t.natAbs = T at hne hd hv hz
  have hRne : List.replicate (p - T.length) '0' ++ T ≠ [] := by simp [hne]
  have hRd : ∀ c ∈ List.replicate (p - T.length) '0' ++ T, digit c = true := by
    intro c hc
    rcases List.mem_append.1 hc with hc | hc
    · rw [(List.mem_replicate.1 hc).2]
      decide
    · exact hd c hc
  have hRv : decimalValue (List.replicate (p - T.length) '0' ++ T) = t.natAbs := by
    rw [decimalValue_zeros, hv]
  have hRfit : (List.replicate (p - T.length) '0' ++ T).length = p ∨
      (((List.replicate (p - T.length) '0' ++ T) = ['0'] ∨
          charAt0 (List.replicate (p - T.length) '0' ++ T) ≠ '0') ∧
        p ≤ (List.replicate (p - T.length) '0' ++ T).length) := by
    by_cases hle : T.length ≤ p
    · left
      simp only [List.length_append, List.length_replicate]
      omega
    · right
      have h0 : p - T.length = 0 := by omega
      rw [h0]
      simp only [List.replicate_zero, List.nil_append]
      exact ⟨hz, by omega⟩
  generalize List.replicate (p - T.length) '0' ++ T = R at hRne hRd hRv hRfit
  have hdig : digitsOf ((if t < 0 then ['-'] else []) ++ R) = R := by
    by_cases hneg : t < 0
    · rw [if_pos hneg]
      simp [digitsOf]
    · rw [if_neg hneg, List.nil_append]
      match R, hRne, hRd with
      | c :: cs, _, hRd =>
        have hc := digit_not_sign c (hRd c (by simp))
        simp [digitsOf, hc.1]
  unfold PlainNumber FitsPadding NoLeadingZero
  rw [hdig]
  refine ⟨⟨hRne, hRd, ?_⟩, hRfit⟩
  intro hneq
  by_cases hneg : t < 0
  · rw [hRv]
    omega
  · rw [if_neg hneg, List.nil_append] at hneq
    exact absurd rfl hneq

/-- The conditions are needed: when every observed member of a sequence built by
`initFromDetection` equals `prefix + renderNumber(t, padding, strictPadding) +
suffix`, the accepted time strings are plain numbers, all with the same number of digits
or all without a leading zero, and a single accepted time string fits the padding of the
pattern. -/
theorem initFromDetection_rendered_only_if (s0 : Sequence) (filePattern : List Char)
    (accept : EPattern) (entries : List (List Char)) (S : Sequence)
    (h : initFromDetection s0 filePattern accept (some entries) = some (true, S))
    (hall : ∀ m ∈ entries, ∀ t timeStr, isIn S m = some (t, timeStr) →
      m = S._prefix ++ renderNumber t S._padding S._strictPadding ++ S._suffix) :
    (∀ p ∈ entries.filterMap (isIn S), PlainNumber p.2) ∧
    ((∀ p ∈ entries.filterMap (isIn S), ∀ q ∈ entries.filterMap (isIn S),
          (digitsOf p.2).length = (digitsOf q.2).length) ∨
        (∀ p ∈ entries.filterMap (isIn S), NoLeadingZero p.2)) ∧
    ((entries.filterMap (isIn S)).length < 2 →
        ∃ s1, retrieveInfosFromPattern filePattern accept (clear s0) = some (true, s1) ∧
          ∀ p ∈ entries.filterMap (isIn S), FitsPadding p.2 s1._padding) := by
  have hrender : ∀ p ∈ entries.filterMap (isIn S),
      p.2 = renderNumber p.1 S._padding S._strictPadding := by
    rintro ⟨t, timeStr⟩ hp
    obtain ⟨m, hm, hin⟩ := List.mem_filterMap.1 hp
    have h1 := (isIn_some S m timeStr t hin).1
    have h2 := hall m hm t timeStr hin
    rw [h1, List.append_assoc, List.append_assoc] at h2
    exact List.append_cancel_right (List.append_cancel_left h2)
  have hplain : ∀ p ∈ entries.filterMap (isIn S), PlainNumber p.2 := by
    intro p hp
    rw [hrender p hp]
    exact (renderNumber_plain _ _ _).1
  have hfits : ∀ p ∈ entries.filterMap (isIn S), FitsPadding p.2 S._padding := by
    intro p hp
    rw [hrender p hp]
    exact (renderNumber_plain _ _ _).2
  obtain ⟨s1, hret, hp, hs, _⟩ := initFromDetection_cases s0 filePattern accept entries S h
  obtain ⟨s1b, hretb, hfewPad, hmanyPad⟩ :=
    initFromDetection_padding s0 filePattern accept entries S h
  have hs1 : s1b = s1 := by
    rw [hret] at hretb
    simp only [Option.some.injEq, Prod.mk.injEq, true_and] at hretb
    exact hretb.symm
  subst hs1
  have hisIn : isIn S = isIn s1b := funext (isIn_congr S s1b hp hs)
  rw [← hisIn] at hfewPad hmanyPad
  refine ⟨hplain, ?_, ?_⟩
  · by_cases hlt : (entries.filterMap (isIn S)).length < 2
    · left
      intro p hp q hq
      generalize entries.filterMap (isIn S) = found at hlt hp hq
      match found, hlt, hp, hq with
      | [], _, hp, _ => exact absurd hp (List.not_mem_nil _)
      | [a], _, hp, hq =>
        rw [List.mem_singleton.1 hp, List.mem_singleton.1 hq]
      | _ :: _ :: _, hlt, _, _ => exact absurd hlt (by simp)
    · obtain ⟨front, rest, hstrs, hpad⟩ := hmanyPad (by omega)
      by_cases hsame : ∀ str ∈ front :: rest,
          getPaddingFromStringNumber str = getPaddingFromStringNumber front
      · left
        have hw : ∀ p ∈ entries.filterMap (isIn S),
            (digitsOf p.2).length = getPaddingFromStringNumber front := by
          intro p hp
          rw [← getPaddingFromStringNumber_plain p.2 (hplain p hp)]
          apply hsame
          rw [← hstrs]
          exact List.mem_map_of_mem _ hp
        intro p hp q hq
        rw [hw p hp, hw q hq]
      · right
        rw [if_neg hsame] at hpad
        intro p hp
        rcases hfits p hp with hlen | ⟨hz, _⟩
        · exfalso
          rw [hpad] at hlen
          exact (hplain p hp).1 (List.length_eq_zero.1 hlen)
        · exact hz
  · intro hlt
    refine ⟨s1b, hret, ?_⟩
    rw [← hfewPad hlt]
    exact hfits

end sequenceParser
